import Mathlib

/-!
Verification of the name-verification engine of this repository
(`Matching_name_verification.py`, with `Duplicate_name_finder_improved_v2.py`
as the earlier generation of the same engine).

The Python code is shallowly embedded: pure Python functions become Lean
functions over `String`/`List Char`; the external `rapidfuzz` similarity
library is modelled as an abstract oracle (a structure of score functions),
since it is not part of this repository; the external `unicodedata`
normalization tables are modelled character-wise for the character
repertoire exercised by the scripts (ASCII plus the precomposed Latin
letters that appear in file names), as documented on each definition.
-/

set_option maxRecDepth 4000

/-- Models Python's regex class `\s` / `str.isspace` / `str.strip`
whitespace for the character repertoire in use: ASCII whitespace plus the
common Unicode whitespace characters.  All characters the engine ever
keeps are ASCII, so only membership of ' ' and non-membership of the kept
characters matter for the proofs. -/
def pyWhite (c : Char) : Bool :=
  c == ' ' || c == '\t' || c == '\n' || c == '\r' || c == '\x0b' || c == '\x0c' ||
  c == '\u0085' || c == '\u00A0' || c == '\u2028' || c == '\u2029'

/-- Models Python `str.lower` character-wise for the repertoire in use:
ASCII letters are lowered, other ASCII characters are fixed; the
precomposed accented capitals in the table are lowered; characters outside
the table are left unchanged (they are already lowercase or caseless in
every input the scripts see). -/
def pyLower (c : Char) : Char :=
  if 65 ≤ c.toNat && c.toNat ≤ 90 then Char.ofNat (c.toNat + 32)
  else if c.toNat < 128 then c
  else if c == 'É' then 'é'
  else if c == 'Á' then 'á'
  else if c == 'Í' then 'í'
  else if c == 'Ó' then 'ó'
  else if c == 'Ú' then 'ú'
  else if c == 'Ñ' then 'ñ'
  else if c == 'Ç' then 'ç'
  else c

/-- Models `unicodedata.normalize("NFKC", ·)` character-wise.  On the
repertoire in use (ASCII and precomposed Latin-1 letters such as 'é', 'ñ',
'ç') canonical composition is the identity. -/
def nfkcChar (c : Char) : List Char := [c]

/-- Models `unicodedata.normalize("NFKD", ·).encode('ascii','ignore')`
character-wise: ASCII characters are fixed; the accented letters in the
table decompose to their base ASCII letter (the combining mark is dropped
by the ascii codec); other non-ASCII characters have no ASCII part and are
dropped. -/
def nfkdAsciiChar (c : Char) : List Char :=
  if c.toNat < 128 then [c]
  else if c == 'é' || c == 'è' || c == 'ê' || c == 'ë' then ['e']
  else if c == 'á' || c == 'à' || c == 'â' || c == 'ä' || c == 'ã' then ['a']
  else if c == 'í' || c == 'ì' || c == 'î' || c == 'ï' then ['i']
  else if c == 'ó' || c == 'ò' || c == 'ô' || c == 'ö' || c == 'õ' then ['o']
  else if c == 'ú' || c == 'ù' || c == 'û' || c == 'ü' then ['u']
  else if c == 'ñ' then ['n']
  else if c == 'ç' then ['c']
  else []

/-- Models Python `str.isalpha` character-wise for the repertoire in use.
The engine only applies it to accent-stripped normalized strings, whose
characters are ASCII. -/
def pyAlphaChar (c : Char) : Bool :=
  (97 ≤ c.toNat && c.toNat ≤ 122) || (65 ≤ c.toNat && c.toNat ≤ 90) ||
  c == 'é' || c == 'è' || c == 'ê' || c == 'ë' ||
  c == 'á' || c == 'à' || c == 'â' || c == 'ä' || c == 'ã' ||
  c == 'í' || c == 'ì' || c == 'î' || c == 'ï' ||
  c == 'ó' || c == 'ò' || c == 'ô' || c == 'ö' || c == 'õ' ||
  c == 'ú' || c == 'ù' || c == 'û' || c == 'ü' ||
  c == 'ñ' || c == 'ç'

/-- The character class kept by `re.sub(r'[^a-z0-9\s-]', ' ', text)`:
lowercase ASCII letters, ASCII digits, whitespace, and the hyphen. -/
def keepChar (c : Char) : Bool :=
  (97 ≤ c.toNat && c.toNat ≤ 122) || (48 ≤ c.toNat && c.toNat ≤ 57) || pyWhite c || c == '-'

/-- Characters that can occur in the output of `normalize_text`. -/
def allowedChar (c : Char) : Bool :=
  (97 ≤ c.toNat && c.toNat ≤ 122) || (48 ≤ c.toNat && c.toNat ≤ 57) || c == '-' || c == ' '

/-- Allowed and not whitespace: a character that survives every stage of
normalization unchanged and anchors a nonempty word. -/
def goodChar (c : Char) : Bool :=
  (97 ≤ c.toNat && c.toNat ≤ 122) || (48 ≤ c.toNat && c.toNat ≤ 57) || c == '-'

/-- Concatenation-map on lists (Python nested loop flattening). -/
def cmap (f : α → List β) : List α → List β
  | [] => []
  | a :: l => f a ++ cmap f l

/-- `re.sub(r'[^a-z0-9\s-]', ' ', ·)`: every character outside the kept
class is replaced by a single space. -/
def scrub (cs : List Char) : List Char :=
  cs.map (fun c => if keepChar c then c else ' ')

/-- Structural worker for `splitWhite`; the fuel argument is always at
least the list length, so the fuel-exhausted branch is never taken. -/
def swFuel : Nat → List Char → List (List Char)
  | _, [] => []
  | 0, _ :: _ => []
  | n + 1, c :: cs =>
    if pyWhite c then swFuel n cs
    else (c :: cs.takeWhile (fun x => !pyWhite x)) ::
         swFuel n (cs.dropWhile (fun x => !pyWhite x))

/-- Splits a character list into its maximal whitespace-free words
(Python `str.split()` with no argument). -/
def splitWhite (cs : List Char) : List (List Char) :=
  swFuel cs.length cs


/-- Joins words with single spaces (`" ".join`). -/
def joinWords : List (List Char) → List Char
  | [] => []
  | [w] => w
  | w :: ws => w ++ ' ' :: joinWords ws

/-- `re.sub(r'\s+', ' ', ·).strip()`: collapse every whitespace run to one
space and strip the ends; equivalently, join the words with single
spaces. -/
def squeeze (cs : List Char) : List Char :=
  joinWords (splitWhite cs)

/-- Structural worker for `collapseRuns`. -/
def crFuel : Nat → List Char → List Char
  | _, [] => []
  | 0, _ :: _ => []
  | n + 1, c :: cs =>
    if pyWhite c then ' ' :: crFuel n (cs.dropWhile pyWhite)
    else c :: crFuel n cs

/-- `re.sub(r'\s+', ' ', ·)` alone (line 136/137 of
`Matching_name_verification.py`): each maximal whitespace run becomes one
space, the ends are not stripped. -/
def collapseRuns (cs : List Char) : List Char :=
  crFuel cs.length cs


/-- `normalize_text(text, preserve_accents)` from
`Matching_name_verification.py` lines 61-72: lowercase, Unicode normalize
(NFKC when preserving accents, NFKD plus ascii-ignore otherwise), replace
every character outside `[a-z0-9\s-]` by a space, collapse whitespace and
strip. -/
def normalize_text (text : String) (preserveAccents : Bool) : String :=
  let low := text.data.map pyLower
  let uni := if preserveAccents then cmap nfkcChar low else cmap nfkdAsciiChar low
  String.mk (squeeze (scrub uni))

/-- The `(text or "")` guard at the top of `normalize_text`: a `None`
argument is treated as the empty string. -/
def normTextOpt (text : Option String) (preserveAccents : Bool) : String :=
  normalize_text (text.getD "") preserveAccents

/-- Python `str.isalpha` on a string: nonempty and all characters
alphabetic. -/
def pyIsAlpha (s : String) : Bool :=
  !s.data.isEmpty && s.data.all pyAlphaChar

/-- Python `str.isspace` on a string: nonempty and all characters
whitespace. -/
def pyIsSpaceStr (s : String) : Bool :=
  !s.data.isEmpty && s.data.all pyWhite

/-- `os.path.basename`: the part of the path after the last separator. -/
def pyBasename (cs : List Char) : List Char :=
  (cs.reverse.takeWhile (fun c => c != '/')).reverse

/-- The root part of `os.path.splitext`: everything before the final dot,
unless every character before that dot is itself a dot (leading-dot file
names keep their dots). -/
def splitextRoot (cs : List Char) : List Char :=
  match cs.reverse.findIdx? (fun c => c == '.') with
  | none => cs
  | some k =>
    let d := cs.length - 1 - k
    if (cs.take d).all (fun c => c == '.') then cs else cs.take d

/-- Separators treated as equivalent by `extract_name_tokens`: the code
replaces each of `_`, `-`, `.`, and space by `_` and then splits on `_`,
which is splitting on any of the four (empty parts included, as in
Python's `str.split('_')`). -/
def sepChar (c : Char) : Bool :=
  c == '_' || c == '-' || c == '.' || c == ' '

/-- Split on separator characters, keeping empty segments
(`"a__b".split('_') == ["a", "", "b"]`, `"".split('_') == [""]`). -/
def splitSeps : List Char → List (List Char)
  | [] => [[]]
  | c :: cs =>
    if sepChar c then [] :: splitSeps cs
    else
      match splitSeps cs with
      | [] => [[c]]
      | w :: ws => (c :: w) :: ws

/-- `extract_name_tokens(filename)` from `Matching_name_verification.py`
lines 74-92: strip path and extension, split the base name on the
separators, and keep each part whose accent-stripped or accent-preserving
normalization is nonempty and not pure whitespace, as the pair of the two
normalizations. -/
def extract_name_tokens (filename : String) : List (String × String) :=
  ((splitSeps (splitextRoot (pyBasename filename.data))).map String.mk).filterMap (fun part =>
    if (normalize_text part false != "" && !pyIsSpaceStr (normalize_text part false)) ||
       (normalize_text part true != "" && !pyIsSpaceStr (normalize_text part true)) then
      some (normalize_text part false, normalize_text part true)
    else none)

/-- `is_bidirectional_match(a, b)` (line 95-96): equality after
accent-stripping normalization. -/
def is_bidirectional_match (a b : String) : Bool :=
  normalize_text a false == normalize_text b false

/-- `p` begins `s`. -/
def leadsWith : List Char → List Char → Bool
  | [], _ => true
  | _ :: _, [] => false
  | a :: p, b :: s => a == b && leadsWith p s

/-- `p` occurs as a contiguous slice of `s` (Python's `in` on strings). -/
def occursIn (p : List Char) : List Char → Bool
  | [] => leadsWith p []
  | c :: s => leadsWith p (c :: s) || occursIn p s

/-- `find_exact_word_match(word, text)` from
`Matching_name_verification.py` lines 99-109: normalize both sides, pad
with one space on each side, and test phrase containment.  On success the
function returns the searched word itself as the matched text and an empty
context list. -/
def find_exact_word_match (word text : String) : Bool × String × List String :=
  if occursIn (' ' :: (normalize_text word false).data ++ [' '])
      (' ' :: (normalize_text text false).data ++ [' ']) then
    (true, word, [])
  else (false, "", [])

/-- The perfect-match test of `check_name_in_pdf` (lines 160-162 and
201-203): an exact hit whose matched text is normalization-equal to the
candidate.  Since `find_exact_word_match` returns the candidate itself as
the matched text, the second conjunct is always true on a hit. -/
def exactPerfect (name text : String) : Bool :=
  (find_exact_word_match name text).1 &&
  is_bidirectional_match (find_exact_word_match name text).2.1 name

/-- Configuration constants (`Config`, lines 32-37). -/
def NO_MATCH_THRESHOLD : Nat := 30

def PERFECT_MATCH_THRESHOLD : Nat := 100

def CHUNK_SIZE : Nat := 2000

/-- Abstract model of the external `rapidfuzz` similarity library (not
part of this repository): `fullSim` models `fuzz.ratio`, `subSim` models
`fuzz.partial_ratio`, and `pickSim` models the default scorer used by
`process.extractOne`. -/
structure Fuzz where
  fullSim : String → String → Nat
  subSim : String → String → Nat
  pickSim : String → String → Nat

/-- The all-zero similarity oracle, used to instantiate witnesses. -/
def zeroFuzz : Fuzz where
  fullSim := fun _ _ => 0
  subSim := fun _ _ => 0
  pickSim := fun _ _ => 0

/-- Python `str.split()` on a string. -/
def pySplit (s : String) : List String :=
  (splitWhite s.data).map String.mk

/-- `" ".join(ws)`. -/
def joinSp (ws : List String) : String :=
  String.mk (joinWords (ws.map String.data))

/-- The contiguous `n`-grams of a word list, in order of starting
position; Python's `range(len(words) - n + 1)` is empty when
`len(words) < n`. -/
def ngramsOf (ws : List String) (n : Nat) : List String :=
  if n ≤ ws.length then
    (List.range (ws.length - n + 1)).map (fun i => joinSp ((ws.drop i).take n))
  else []

/-- Model of building a Python `set` by successive insertion: duplicates
are dropped; iteration order is modelled as first-insertion order. -/
def addUniq (l : List String) (x : String) : List String :=
  if l.contains x then l else l ++ [x]

/-- `process.extractOne(name, candidates)` with the oracle's `pickSim`
scorer: scans the candidates keeping the first one with a strictly
greatest score. -/
def extractOne (fz : Fuzz) (name : String) (cands : List String) : Option (String × Nat) :=
  cands.foldl
    (fun best c =>
      match best with
      | none => some (c, fz.pickSim name c)
      | some (b, s) => if fz.pickSim name c > s then some (c, fz.pickSim name c) else some (b, s))
    none

/-- `get_best_ngram_match(name, chunk)` from
`Matching_name_verification.py` lines 111-121: collect all 2- to 5-grams
of the chunk plus the whole chunk, and return the candidate the scorer
ranks best (falling back to the chunk itself when the result is falsy). -/
def get_best_ngram_match (fz : Fuzz) (name chunk : String) : String :=
  let ws := pySplit chunk
  let cands := ((ngramsOf ws 2 ++ ngramsOf ws 3 ++ ngramsOf ws 4 ++ ngramsOf ws 5) ++
    [chunk]).foldl addUniq []
  match extractOne fz name cands with
  | none => chunk
  | some (m, _) => if m == "" then chunk else m

/-- `range(0, len(text), Config.CHUNK_SIZE)` slicing (lines 170-171):
the document text cut into consecutive windows of `CHUNK_SIZE`
characters. -/
def chunksOf (text : String) : List String :=
  (List.range ((text.data.length + CHUNK_SIZE - 1) / CHUNK_SIZE)).map
    (fun k => String.mk ((text.data.drop (k * CHUNK_SIZE)).take CHUNK_SIZE))

/-- The mutable scan state of `check_name_in_pdf`: `best_score`,
`best_pair`, `best_matched_text`. -/
structure ScanSt where
  score : Nat
  pair : Option (String × String)
  matched : String
deriving Repr, DecidableEq

/-- One flattened fuzzy-scoring event: the pair label that would be
recorded, the raw window score `max(ratio, partial)`, and the candidate
name and chunk (used for the snippet). -/
structure FEntry where
  lab : String × String
  raw : Nat
  nm : String
  ch : String
deriving Repr, DecidableEq

/-- The body of the chunk loop (lines 212-221), as an update on the scan
state: a strictly better raw score replaces the best score with its value
clamped to `PERFECT_MATCH_THRESHOLD - 1`, records the pair label, and
recomputes the snippet. -/
def fUpd (fz : Fuzz) (st : ScanSt) (e : FEntry) : ScanSt :=
  if e.raw > st.score then
    { score := min e.raw (PERFECT_MATCH_THRESHOLD - 1)
      pair := some e.lab
      matched := get_best_ngram_match fz e.nm e.ch }
  else st

/-- The chunk loop body for one chunk of one candidate. -/
def chunkStep (fz : Fuzz) (lab : String × String) (name : String) (st : ScanSt)
    (chunk : String) : ScanSt :=
  fUpd fz st { lab := lab, raw := max (fz.fullSim name chunk) (fz.subSim name chunk),
               nm := name, ch := chunk }

/-- The whole chunk loop for one candidate name against one text. -/
def fuzzyPass (fz : Fuzz) (lab : String × String) (name text : String) (st : ScanSt) : ScanSt :=
  (chunksOf text).foldl (chunkStep fz lab name) st

/-- One candidate name against one text (lines 160-179 / 201-221): an
exact perfect hit stops the scan with score 100; otherwise the fuzzy chunk
loop updates the running state.  The Boolean is `perfect_match_found`. -/
def nameStep (fz : Fuzz) (lab : String × String) (name text : String) (st : ScanSt) :
    Bool × ScanSt :=
  if exactPerfect name text then
    (true, { score := 100, pair := some lab, matched := (find_exact_word_match name text).2.1 })
  else (false, fuzzyPass fz lab name text st)

/-- `for name in [...]` with the `break` on a perfect match. -/
def namesLoop (fz : Fuzz) (labOf : String → String × String) (names : List String)
    (text : String) (st : ScanSt) : Bool × ScanSt :=
  match names with
  | [] => (false, st)
  | nm :: rest =>
    let r := nameStep fz (labOf nm) nm text st
    if r.1 then (true, r.2) else namesLoop fz labOf rest text r.2

/-- `for text in [pdf_no_accents_norm, pdf_with_accents_norm]` with the
`break` on a perfect match. -/
def textsLoop (fz : Fuzz) (labOf : String → String × String) (names : List String)
    (texts : List String) (st : ScanSt) : Bool × ScanSt :=
  match texts with
  | [] => (false, st)
  | t :: rest =>
    let r := namesLoop fz labOf names t st
    if r.1 then (true, r.2) else textsLoop fz labOf names rest r.2

/-- The three phrase orderings built for a token pair (lines 191-195):
`"first last"`, `"last first"`, `"first, last"`, each as the
(accent-stripped, accent-preserving) pair of strings. -/
def combosOf (fi la : String × String) : List (String × String) :=
  [ (fi.1 ++ " " ++ la.1, fi.2 ++ " " ++ la.2),
    (la.1 ++ " " ++ fi.1, la.2 ++ " " ++ fi.2),
    (fi.1 ++ ", " ++ la.1, fi.2 ++ ", " ++ la.2) ]

/-- `for no_acc_combined, with_acc_combined in combinations` with the
`break` on a perfect match. -/
def combosLoop (fz : Fuzz) (lab : String × String) (combos : List (String × String))
    (texts : List String) (st : ScanSt) : Bool × ScanSt :=
  match combos with
  | [] => (false, st)
  | c :: rest =>
    let r := textsLoop fz (fun _ => lab) [c.1, c.2] texts st
    if r.1 then (true, r.2) else combosLoop fz lab rest texts r.2

/-- `range(a, b)` as a list. -/
def rangeFrom (a b : Nat) : List Nat :=
  (List.range (b - a)).map (fun k => a + k)

/-- The unordered index pairs scanned by the two nested loops `for i in
range(len(alpha_tokens)): for j in range(i + 1, len(alpha_tokens))`
(lines 186-187), in loop order: `i` ascending, then `j` ascending. -/
def pairIdx (n : Nat) : List (Nat × Nat) :=
  cmap (fun i => (rangeFrom (i + 1) n).map (fun j => (i, j))) (List.range n)

/-- The two nested position loops of Case 2 with all their `break`s. -/
def pairsLoop (fz : Fuzz) (alpha : List (String × String)) (texts : List String) :
    List (Nat × Nat) → ScanSt → Bool × ScanSt
  | [], st => (false, st)
  | ij :: rest, st =>
    let fi := alpha.getD ij.1 ("", "")
    let la := alpha.getD ij.2 ("", "")
    let r := combosLoop fz (fi.2, la.2) (combosOf fi la) texts st
    if r.1 then (true, r.2) else pairsLoop fz alpha texts rest r.2

/-- The alphabetic-token filter (line 143): keep the tokens whose
accent-stripped form is alphabetic. -/
def alphaOf (tokens : List (String × String)) : List (String × String) :=
  tokens.filter (fun t => pyIsAlpha t.1)

/-- The two search texts (lines 132-137): the accent-stripped and the
accent-preserving normalization of the document text, each with
whitespace runs collapsed once more. -/
def textsOf (pdfText : String) : List String :=
  [ String.mk (collapseRuns (normalize_text pdfText false).data),
    String.mk (collapseRuns (normalize_text pdfText true).data) ]

/-- Every candidate name the scan can test exactly: the two single-token
forms when there is exactly one alphabetic token, and the six combined
forms of every index pair. -/
def scanNames (alpha : List (String × String)) : List String :=
  (match alpha with
   | [t] => [t.1, t.2]
   | _ => []) ++
  cmap (fun ij =>
      let fi := alpha.getD ij.1 ("", "")
      let la := alpha.getD ij.2 ("", "")
      cmap (fun c => [c.1, c.2]) (combosOf fi la))
    (pairIdx alpha.length)

/-- The six candidate phrase strings of one token pair, in scan order. -/
def candNamesOfPair (fi la : String × String) : List String :=
  cmap (fun c => [c.1, c.2]) (combosOf fi la)

/-- The flattened sequence of fuzzy-scoring events of the Case 2 scan, in
execution order: pairs, then combos, then texts, then the two variant
names, then chunks. -/
def pairEntries (fz : Fuzz) (alpha : List (String × String)) (texts : List String) :
    List FEntry :=
  cmap (fun ij =>
      let fi := alpha.getD ij.1 ("", "")
      let la := alpha.getD ij.2 ("", "")
      cmap (fun c =>
          cmap (fun t =>
              cmap (fun nm =>
                  (chunksOf t).map (fun ch =>
                    { lab := (fi.2, la.2),
                      raw := max (fz.fullSim nm ch) (fz.subSim nm ch),
                      nm := nm, ch := ch }))
                [c.1, c.2])
            texts)
        (combosOf fi la))
    (pairIdx alpha.length)

/-- The result record of `check_name_in_pdf`.  The early error returns
carry no `matched_text` key; the consumer reads it with
`res.get("matched_text", "")`, so it is the empty string there. -/
structure MatchResult where
  best_pair : Option (String × String)
  best_score : Nat
  matched_text : String
  error : Option String
deriving Repr, DecidableEq

/-- The matching core of `check_name_in_pdf` (lines 129-239), applied to
the extracted document text and the tokens of the file name: normalize
the text, filter the alphabetic tokens, run the single-token case when
there is exactly one, then the pair case. -/
def check_name_core (fz : Fuzz) (tokens : List (String × String)) (pdfText : String) :
    MatchResult :=
  let alpha := alphaOf tokens
  if alpha.isEmpty then
    { best_pair := none, best_score := 0, matched_text := "",
      error := some "No valid alphabetic name tokens found" }
  else
    let texts := textsOf pdfText
    let init : ScanSt := { score := 0, pair := none, matched := "" }
    let r1 :=
      match alpha with
      | [tok] => textsLoop fz (fun nm => (nm, "")) [tok.1, tok.2] texts init
      | _ => (false, init)
    let st2 := if r1.1 then r1.2 else (pairsLoop fz alpha texts (pairIdx alpha.length) r1.2).2
    { best_pair := st2.pair, best_score := st2.score, matched_text := st2.matched,
      error := none }

/-- `check_name_in_pdf(pdf_path)` (lines 124-239) with the external text
extraction made explicit: an extraction error short-circuits to an error
result before any evaluation; otherwise the matching core runs on the
file-name tokens and the extracted text. -/
def check_name_in_pdf (fz : Fuzz) (fileName pdfText : String)
    (extractError : Option String) : MatchResult :=
  match extractError with
  | some e => { best_pair := none, best_score := 0, matched_text := "", error := some e }
  | none => check_name_core fz (extract_name_tokens fileName) pdfText

/-- The per-document verdicts of the orchestrator. -/
inductive Verdict where
  | noMatch
  | partialMatch
  | perfectMatch
  | error
deriving Repr, DecidableEq

/-- The bucket classification of `process_folder` (lines 318-325): an
error wins over any score; otherwise the two thresholds split the score
range. -/
def classify (err : Option String) (score : Nat) : Verdict :=
  match err with
  | some _ => Verdict.error
  | none =>
    if score < NO_MATCH_THRESHOLD then Verdict.noMatch
    else if score < PERFECT_MATCH_THRESHOLD then Verdict.partialMatch
    else Verdict.perfectMatch

/-- Classification of a result record. -/
def classifyResult (r : MatchResult) : Verdict :=
  classify r.error r.best_score

/-- Maximum of a list with a starting value. -/
def listMax (a : Nat) (l : List Nat) : Nat :=
  l.foldl max a

/-- Loop order on index pairs: `i` ascending, then `j` ascending. -/
def pairLt (a b : Nat × Nat) : Prop :=
  a.1 < b.1 ∨ (a.1 = b.1 ∧ a.2 < b.2)

/-- A similarity oracle exhibiting two raw window scores of 100 for
candidates of two different token pairs; `rapidfuzz` itself produces raw
100 from `partial_ratio` whenever the candidate occurs as a plain
substring of the window, word boundaries or not. -/
def tieFuzz : Fuzz where
  fullSim := fun _ _ => 0
  subSim := fun nm _ => if nm == "ba xa" || nm == "ba ya" then 100 else 0
  pickSim := fun _ _ => 0

theorem dropWhile_length_le (p : α → Bool) : ∀ l : List α, (l.dropWhile p).length ≤ l.length := by
  intro l
  induction l with
  | nil => simp [List.dropWhile]
  | cons a l ih =>
    rw [List.dropWhile_cons]
    split
    · exact Nat.le_succ_of_le ih
    · exact Nat.le_refl _

theorem swFuel_congr : ∀ (n m : Nat) (cs : List Char), cs.length ≤ n → cs.length ≤ m →
    swFuel n cs = swFuel m cs := by
  intro n
  induction n with
  | zero =>
    intro m cs h1 _
    match cs, h1 with
    | [], _ =>
      match m with
      | 0 => rfl
      | _ + 1 => rfl
  | succ n ih =>
    intro m cs h1 h2
    match cs with
    | [] =>
      match m with
      | 0 => rfl
      | _ + 1 => rfl
    | c :: cs' =>
      match m, h2 with
      | m' + 1, h2' =>
        show (if pyWhite c then swFuel n cs' else _) = (if pyWhite c then swFuel m' cs' else _)
        by_cases hc : pyWhite c = true
        · rw [if_pos hc, if_pos hc]
          exact ih m' cs' (by simpa using h1) (by simpa using h2')
        · rw [if_neg hc, if_neg hc]
          have hd := dropWhile_length_le (fun x => !pyWhite x) cs'
          rw [ih m' (cs'.dropWhile (fun x => !pyWhite x))
            (by simp at h1; omega) (by simp at h2'; omega)]

theorem splitWhite_nil : splitWhite [] = [] := rfl

theorem splitWhite_cons (c : Char) (cs : List Char) :
    splitWhite (c :: cs) =
      if pyWhite c then splitWhite cs
      else (c :: cs.takeWhile (fun x => !pyWhite x)) ::
           splitWhite (cs.dropWhile (fun x => !pyWhite x)) := by
  show swFuel (cs.length + 1) (c :: cs) = _
  rw [swFuel]
  by_cases hc : pyWhite c = true
  · rw [if_pos hc, if_pos hc]
    rfl
  · rw [if_neg hc, if_neg hc]
    have hd := dropWhile_length_le (fun x => !pyWhite x) cs
    rw [swFuel_congr cs.length (cs.dropWhile (fun x => !pyWhite x)).length
      (cs.dropWhile (fun x => !pyWhite x)) hd (Nat.le_refl _)]
    rfl

theorem cmap_append (f : α → List β) (l1 l2 : List α) :
    cmap f (l1 ++ l2) = cmap f l1 ++ cmap f l2 := by
  induction l1 with
  | nil => simp [cmap]
  | cons a l ih => simp [cmap, ih]

theorem mem_cmap {f : α → List β} {b : β} : ∀ {l : List α}, b ∈ cmap f l ↔ ∃ a ∈ l, b ∈ f a := by
  intro l
  induction l with
  | nil => simp [cmap]
  | cons a l ih => simp [cmap, ih]

theorem cmap_eq_nil {f : α → List β} : ∀ {l : List α}, (∀ a ∈ l, f a = []) → cmap f l = [] := by
  intro l
  induction l with
  | nil => simp [cmap]
  | cons a l ih =>
    intro h
    simp only [cmap, h a (by simp), List.nil_append]
    exact ih (fun a ha => h a (by simp [ha]))

theorem length_cmap (f : α → List β) : ∀ l : List α,
    (cmap f l).length = (l.map (fun a => (f a).length)).sum := by
  intro l
  induction l with
  | nil => simp [cmap]
  | cons a l ih => simp [cmap, ih]

theorem pyWhite_sp : pyWhite ' ' = true := by decide

theorem pyWhite_toNat {c : Char} (h : pyWhite c = true) :
    c.toNat = 32 ∨ c.toNat = 9 ∨ c.toNat = 10 ∨ c.toNat = 13 ∨ c.toNat = 11 ∨
    c.toNat = 12 ∨ c.toNat = 133 ∨ c.toNat = 160 ∨ c.toNat = 8232 ∨ c.toNat = 8233 := by
  simp only [pyWhite, Bool.or_eq_true, beq_iff_eq] at h
  rcases h with ((((((((h | h) | h) | h) | h) | h) | h) | h) | h) | h <;> subst h <;> simp

theorem goodChar_toNat {c : Char} (h : goodChar c = true) :
    (97 ≤ c.toNat ∧ c.toNat ≤ 122) ∨ (48 ≤ c.toNat ∧ c.toNat ≤ 57) ∨ c.toNat = 45 := by
  simp only [goodChar, Bool.or_eq_true, Bool.and_eq_true, decide_eq_true_eq, beq_iff_eq] at h
  rcases h with (h | h) | h
  · exact Or.inl h
  · exact Or.inr (Or.inl h)
  · subst h; right; right; decide

theorem allowedChar_cases {c : Char} (h : allowedChar c = true) :
    (97 ≤ c.toNat ∧ c.toNat ≤ 122) ∨ (48 ≤ c.toNat ∧ c.toNat ≤ 57) ∨ c = '-' ∨ c = ' ' := by
  simp only [allowedChar, Bool.or_eq_true, Bool.and_eq_true, decide_eq_true_eq,
    beq_iff_eq] at h
  tauto

theorem keepChar_cases {c : Char} (h : keepChar c = true) :
    (97 ≤ c.toNat ∧ c.toNat ≤ 122) ∨ (48 ≤ c.toNat ∧ c.toNat ≤ 57) ∨ pyWhite c = true ∨
    c = '-' := by
  simp only [keepChar, Bool.or_eq_true, Bool.and_eq_true, decide_eq_true_eq,
    beq_iff_eq] at h
  tauto

theorem goodChar_not_white {c : Char} (h : goodChar c = true) : pyWhite c = false := by
  rcases Bool.eq_false_or_eq_true (pyWhite c) with hw | hw
  · rcases goodChar_toNat h with h1 | h1 | h1 <;>
      rcases pyWhite_toNat hw with h2 | h2 | h2 | h2 | h2 | h2 | h2 | h2 | h2 | h2 <;> omega
  · exact hw

theorem goodChar_allowed {c : Char} (h : goodChar c = true) : allowedChar c = true := by
  simp only [goodChar, Bool.or_eq_true, Bool.and_eq_true, decide_eq_true_eq, beq_iff_eq] at h
  simp only [allowedChar, Bool.or_eq_true, Bool.and_eq_true, decide_eq_true_eq, beq_iff_eq]
  tauto

theorem allowedChar_not_white_good {c : Char} (ha : allowedChar c = true)
    (hw : pyWhite c = false) : goodChar c = true := by
  rcases allowedChar_cases ha with h | h | h | h
  · simp only [goodChar, Bool.or_eq_true, Bool.and_eq_true, decide_eq_true_eq]; tauto
  · simp only [goodChar, Bool.or_eq_true, Bool.and_eq_true, decide_eq_true_eq]; tauto
  · subst h; decide
  · subst h; simp [pyWhite_sp] at hw

theorem allowedChar_lt128 {c : Char} (h : allowedChar c = true) : c.toNat < 128 := by
  rcases allowedChar_cases h with h1 | h1 | h1 | h1
  · omega
  · omega
  · subst h1; decide
  · subst h1; decide

theorem pyLower_allowed {c : Char} (h : allowedChar c = true) : pyLower c = c := by
  have h128 := allowedChar_lt128 h
  have hAZ : (65 ≤ c.toNat && c.toNat ≤ 90) = false := by
    rcases allowedChar_cases h with h1 | h1 | h1 | h1
    · simp only [Bool.and_eq_false_iff, decide_eq_false_iff_not]; omega
    · simp only [Bool.and_eq_false_iff, decide_eq_false_iff_not]; omega
    · subst h1; decide
    · subst h1; decide
  simp [pyLower, hAZ, h128]

theorem nfkdAsciiChar_allowed {c : Char} (h : allowedChar c = true) :
    nfkdAsciiChar c = [c] := by
  simp [nfkdAsciiChar, allowedChar_lt128 h]

theorem keepChar_allowed {c : Char} (h : allowedChar c = true) : keepChar c = true := by
  rcases allowedChar_cases h with h1 | h1 | h1 | h1
  · simp only [keepChar, Bool.or_eq_true, Bool.and_eq_true, decide_eq_true_eq]; tauto
  · simp only [keepChar, Bool.or_eq_true, Bool.and_eq_true, decide_eq_true_eq]; tauto
  · subst h1; decide
  · subst h1; decide

theorem map_pyLower_allowed : ∀ {cs : List Char}, (∀ c ∈ cs, allowedChar c = true) →
    cs.map pyLower = cs := by
  intro cs
  induction cs with
  | nil => simp
  | cons a l ih =>
    intro h
    simp only [List.map_cons, pyLower_allowed (h a (by simp)), List.cons.injEq, true_and]
    exact ih (fun c hc => h c (by simp [hc]))

theorem cmap_nfkc : ∀ cs : List Char, cmap nfkcChar cs = cs := by
  intro cs
  induction cs with
  | nil => rfl
  | cons a l ih => simp [cmap, nfkcChar, ih]

theorem cmap_nfkd_allowed : ∀ {cs : List Char}, (∀ c ∈ cs, allowedChar c = true) →
    cmap nfkdAsciiChar cs = cs := by
  intro cs
  induction cs with
  | nil => simp [cmap]
  | cons a l ih =>
    intro h
    simp only [cmap, nfkdAsciiChar_allowed (h a (by simp)), List.cons_append,
      List.nil_append, List.cons.injEq, true_and]
    exact ih (fun c hc => h c (by simp [hc]))

theorem scrub_allowed : ∀ {cs : List Char}, (∀ c ∈ cs, allowedChar c = true) →
    scrub cs = cs := by
  intro cs
  induction cs with
  | nil => simp [scrub]
  | cons a l ih =>
    intro h
    simp only [scrub, List.map_cons, keepChar_allowed (h a (by simp)), if_true,
      List.cons.injEq, true_and]
    exact ih (fun c hc => h c (by simp [hc]))

theorem mem_scrub {cs : List Char} {c : Char} (h : c ∈ scrub cs) :
    (keepChar c = true ∧ c ∈ cs) ∨ c = ' ' := by
  simp only [scrub, List.mem_map] at h
  obtain ⟨a, ha, hc⟩ := h
  by_cases hk : keepChar a = true
  · rw [if_pos hk] at hc; subst hc; exact Or.inl ⟨hk, ha⟩
  · rw [if_neg hk] at hc; exact Or.inr hc.symm

theorem takeWhile_mem {p : Char → Bool} : ∀ {l : List Char} {c : Char},
    c ∈ l.takeWhile p → c ∈ l ∧ p c = true := by
  intro l
  induction l with
  | nil => intro c h; simp [List.takeWhile] at h
  | cons a l ih =>
    intro c h
    rw [List.takeWhile_cons] at h
    by_cases ha : p a = true
    · rw [if_pos ha] at h
      rcases List.mem_cons.mp h with rfl | h'
      · exact ⟨by simp, ha⟩
      · obtain ⟨h1, h2⟩ := ih h'
        exact ⟨by simp [h1], h2⟩
    · rw [if_neg ha] at h; simp at h

theorem dropWhile_mem {p : Char → Bool} : ∀ {l : List Char} {c : Char},
    c ∈ l.dropWhile p → c ∈ l := by
  intro l
  induction l with
  | nil => intro c h; simp [List.dropWhile] at h
  | cons a l ih =>
    intro c h
    rw [List.dropWhile_cons] at h
    by_cases ha : p a = true
    · rw [if_pos ha] at h
      exact by simp [ih h]
    · rw [if_neg ha] at h; exact h

theorem takeWhile_all {p : Char → Bool} : ∀ {l : List Char}, (∀ c ∈ l, p c = true) →
    l.takeWhile p = l := by
  intro l
  induction l with
  | nil => simp
  | cons a l ih =>
    intro h
    rw [List.takeWhile_cons, if_pos (h a (by simp))]
    simp only [List.cons.injEq, true_and]
    exact ih (fun c hc => h c (by simp [hc]))

theorem dropWhile_all {p : Char → Bool} : ∀ {l : List Char}, (∀ c ∈ l, p c = true) →
    l.dropWhile p = [] := by
  intro l
  induction l with
  | nil => simp
  | cons a l ih =>
    intro h
    rw [List.dropWhile_cons, if_pos (h a (by simp))]
    exact ih (fun c hc => h c (by simp [hc]))

theorem takeWhile_all_append {p : Char → Bool} :
    ∀ {w rest : List Char}, (∀ c ∈ w, p c = true) →
    (w ++ rest).takeWhile p = w ++ rest.takeWhile p := by
  intro w
  induction w with
  | nil => simp
  | cons a l ih =>
    intro rest h
    rw [List.cons_append, List.takeWhile_cons, if_pos (h a (by simp))]
    simp only [List.cons_append, List.cons.injEq, true_and]
    exact ih (fun c hc => h c (by simp [hc]))

theorem dropWhile_all_append {p : Char → Bool} :
    ∀ {w rest : List Char}, (∀ c ∈ w, p c = true) →
    (w ++ rest).dropWhile p = rest.dropWhile p := by
  intro w
  induction w with
  | nil => simp
  | cons a l ih =>
    intro rest h
    rw [List.cons_append, List.dropWhile_cons, if_pos (h a (by simp))]
    exact ih (fun c hc => h c (by simp [hc]))

theorem splitWhite_words_fuel : ∀ (n : Nat) (cs : List Char), cs.length ≤ n →
    ∀ w ∈ splitWhite cs, w ≠ [] ∧ ∀ c ∈ w, pyWhite c = false ∧ c ∈ cs := by
  intro n
  induction n with
  | zero =>
    intro cs h w hw
    match cs, h with
    | [], _ =>
      rw [splitWhite_nil] at hw
      simp at hw
  | succ n ih =>
    intro cs h w hw
    match cs with
    | [] =>
      rw [splitWhite_nil] at hw
      simp at hw
    | c :: cs' =>
      rw [splitWhite_cons] at hw
      by_cases hc : pyWhite c = true
      · rw [if_pos hc] at hw
        obtain ⟨hne, hall⟩ := ih cs' (by simpa using h) w hw
        exact ⟨hne, fun x hx => ⟨(hall x hx).1, by simp [(hall x hx).2]⟩⟩
      · rw [if_neg hc] at hw
        rcases List.mem_cons.mp hw with rfl | hw'
        · refine ⟨by simp, ?_⟩
          intro x hx
          rcases List.mem_cons.mp hx with rfl | hx'
          · exact ⟨Bool.of_not_eq_true hc, by simp⟩
          · obtain ⟨h1, h2⟩ := takeWhile_mem hx'
            exact ⟨by simpa using h2, by simp [h1]⟩
        · have hd := dropWhile_length_le (fun x => !pyWhite x) cs'
          obtain ⟨hne, hall⟩ := ih (cs'.dropWhile (fun x => !pyWhite x))
            (by simp at h; omega) w hw'
          refine ⟨hne, fun x hx => ⟨(hall x hx).1, ?_⟩⟩
          exact by simp [dropWhile_mem (hall x hx).2]

theorem splitWhite_words : ∀ cs : List Char, ∀ w ∈ splitWhite cs,
    w ≠ [] ∧ ∀ c ∈ w, pyWhite c = false ∧ c ∈ cs := by
  intro cs
  exact splitWhite_words_fuel cs.length cs (Nat.le_refl _)

theorem splitWhite_single {w : List Char} (hne : w ≠ [])
    (hnw : ∀ c ∈ w, pyWhite c = false) : splitWhite w = [w] := by
  match w, hne with
  | c :: w', _ =>
    have hc : ¬ pyWhite c = true := by simp [hnw c (by simp)]
    rw [splitWhite_cons, if_neg hc]
    have hall : ∀ x ∈ w', (fun x => !pyWhite x) x = true := by
      intro x hx
      simp [hnw x (by simp [hx])]
    rw [takeWhile_all hall, dropWhile_all hall]
    simp [splitWhite_nil]

theorem splitWhite_sp_cons (rest : List Char) :
    splitWhite (' ' :: rest) = splitWhite rest := by
  rw [splitWhite_cons, if_pos pyWhite_sp]

theorem splitWhite_word_lead {w : List Char} (rest : List Char) (hne : w ≠ [])
    (hnw : ∀ c ∈ w, pyWhite c = false) :
    splitWhite (w ++ ' ' :: rest) = w :: splitWhite rest := by
  match w, hne with
  | c :: w', _ =>
    have hc : ¬ pyWhite c = true := by simp [hnw c (by simp)]
    have hall : ∀ x ∈ w', (fun x => !pyWhite x) x = true := by
      intro x hx
      simp [hnw x (by simp [hx])]
    rw [List.cons_append, splitWhite_cons, if_neg hc]
    rw [takeWhile_all_append hall, dropWhile_all_append hall]
    rw [List.takeWhile_cons_of_neg (by simp [pyWhite_sp]),
        List.dropWhile_cons_of_neg (by simp [pyWhite_sp])]
    rw [List.append_nil, splitWhite_sp_cons]

theorem splitWhite_joinWords : ∀ ws : List (List Char),
    (∀ w ∈ ws, w ≠ [] ∧ ∀ c ∈ w, pyWhite c = false) →
    splitWhite (joinWords ws) = ws := by
  intro ws
  induction ws with
  | nil =>
    intro _
    simp [joinWords, splitWhite_nil]
  | cons w ws ih =>
    intro h
    match ws with
    | [] =>
      show splitWhite (joinWords [w]) = [w]
      exact splitWhite_single (h w (by simp)).1 (h w (by simp)).2
    | v :: vs =>
      show splitWhite (w ++ ' ' :: joinWords (v :: vs)) = w :: v :: vs
      rw [splitWhite_word_lead _ (h w (by simp)).1 (h w (by simp)).2]
      rw [ih (fun x hx => h x (by simp [hx]))]

theorem squeeze_idem (cs : List Char) : squeeze (squeeze cs) = squeeze cs := by
  unfold squeeze
  rw [splitWhite_joinWords (splitWhite cs)
    (fun w hw => ⟨(splitWhite_words cs w hw).1,
      fun c hc => ((splitWhite_words cs w hw).2 c hc).1⟩)]

theorem joinWords_chars : ∀ ws : List (List Char), ∀ c ∈ joinWords ws,
    (∃ w ∈ ws, c ∈ w) ∨ c = ' ' := by
  intro ws
  induction ws with
  | nil => intro c hc; simp [joinWords] at hc
  | cons w ws ih =>
    intro c hc
    match ws with
    | [] =>
      exact Or.inl ⟨w, by simp, hc⟩
    | v :: vs =>
      rcases List.mem_append.mp hc with h | h
      · exact Or.inl ⟨w, by simp, h⟩
      · rcases List.mem_cons.mp h with rfl | h'
        · exact Or.inr rfl
        · rcases ih c h' with ⟨u, hu, hcu⟩ | rfl
          · exact Or.inl ⟨u, by simp [hu], hcu⟩
          · exact Or.inr rfl

theorem squeeze_chars {cs : List Char} {c : Char} (h : c ∈ squeeze cs) :
    (c ∈ cs ∧ pyWhite c = false) ∨ c = ' ' := by
  unfold squeeze at h
  rcases joinWords_chars _ c h with ⟨w, hw, hcw⟩ | rfl
  · obtain ⟨_, hall⟩ := splitWhite_words cs w hw
    exact Or.inl ⟨(hall c hcw).2, (hall c hcw).1⟩
  · exact Or.inr rfl

theorem norm_data_allowed (s : String) (p : Bool) :
    ∀ c ∈ (normalize_text s p).data, allowedChar c = true := by
  intro c hc
  have hc' : c ∈ squeeze (scrub (if p then cmap nfkcChar (s.data.map pyLower)
      else cmap nfkdAsciiChar (s.data.map pyLower))) := hc
  rcases squeeze_chars hc' with ⟨hmem, hnw⟩ | rfl
  · rcases mem_scrub hmem with ⟨hk, _⟩ | rfl
    · rcases keepChar_cases hk with h1 | h1 | h1 | h1
      · simp only [allowedChar, Bool.or_eq_true, Bool.and_eq_true, decide_eq_true_eq]
        tauto
      · simp only [allowedChar, Bool.or_eq_true, Bool.and_eq_true, decide_eq_true_eq]
        tauto
      · rw [h1] at hnw; cases hnw
      · subst h1; decide
    · decide
  · decide

theorem norm_of_norm (s : String) (p q : Bool) :
    normalize_text (normalize_text s p) q = normalize_text s p := by
  have hall : ∀ c ∈ (normalize_text s p).data, allowedChar c = true := norm_data_allowed s p
  show String.mk (squeeze (scrub (if q then cmap nfkcChar ((normalize_text s p).data.map pyLower)
      else cmap nfkdAsciiChar ((normalize_text s p).data.map pyLower)))) = normalize_text s p
  rw [map_pyLower_allowed hall]
  have huni : (if q then cmap nfkcChar (normalize_text s p).data
      else cmap nfkdAsciiChar (normalize_text s p).data) = (normalize_text s p).data := by
    cases q
    · simpa using cmap_nfkd_allowed hall
    · simpa using cmap_nfkc _
  rw [huni, scrub_allowed hall]
  have hsq : squeeze (normalize_text s p).data = (normalize_text s p).data := by
    show squeeze (squeeze (scrub _)) = _
    rw [squeeze_idem]
    rfl
  rw [hsq]

theorem leadsWith_length : ∀ {p s : List Char}, leadsWith p s = true → p.length ≤ s.length := by
  intro p
  induction p with
  | nil => intro s _; simp
  | cons a p ih =>
    intro s h
    match s with
    | [] => simp [leadsWith] at h
    | b :: s' =>
      simp only [leadsWith, Bool.and_eq_true] at h
      simpa using ih h.2

theorem occursIn_length : ∀ {s p : List Char}, occursIn p s = true → p.length ≤ s.length := by
  intro s
  induction s with
  | nil => intro p h; exact leadsWith_length (by simpa [occursIn] using h)
  | cons b s ih =>
    intro p h
    simp only [occursIn, Bool.or_eq_true] at h
    rcases h with h | h
    · exact leadsWith_length h
    · exact Nat.le_succ_of_le (ih h)

theorem mk_ne_empty {l : List Char} (h : l ≠ []) : String.mk l ≠ "" := by
  intro he
  apply h
  have : (String.mk l).data = ("" : String).data := by rw [he]
  simpa using this

theorem splitWhite_ne_nil_fuel : ∀ (n : Nat) (cs : List Char), cs.length ≤ n →
    ∀ c ∈ cs, pyWhite c = false → splitWhite cs ≠ [] := by
  intro n
  induction n with
  | zero =>
    intro cs h c hc _
    match cs, h with
    | [], _ => simp at hc
  | succ n ih =>
    intro cs h c hc hnw
    match cs with
    | [] => simp at hc
    | d :: cs' =>
      rw [splitWhite_cons]
      by_cases hd : pyWhite d = true
      · rw [if_pos hd]
        rcases List.mem_cons.mp hc with rfl | hc'
        · rw [hd] at hnw; cases hnw
        · exact ih cs' (by simpa using h) c hc' hnw
      · rw [if_neg hd]
        simp

theorem splitWhite_ne_nil : ∀ {cs : List Char} {c : Char}, c ∈ cs → pyWhite c = false →
    splitWhite cs ≠ [] := by
  intro cs c hc hnw
  exact splitWhite_ne_nil_fuel cs.length cs (Nat.le_refl _) c hc hnw

theorem mem_joinWords_of_mem : ∀ {ws : List (List Char)} {w : List Char} {c : Char},
    w ∈ ws → c ∈ w → c ∈ joinWords ws := by
  intro ws
  induction ws with
  | nil => intro w c hw _; simp at hw
  | cons v vs ih =>
    intro w c hw hc
    match vs with
    | [] =>
      rcases List.mem_cons.mp hw with rfl | h
      · exact hc
      · simp at h
    | u :: us =>
      show c ∈ v ++ ' ' :: joinWords (u :: us)
      rcases List.mem_cons.mp hw with rfl | h
      · exact List.mem_append_left _ hc
      · exact List.mem_append_right _ (by simp [ih h hc])

theorem squeeze_ne_nil {cs : List Char} {c : Char} (hc : c ∈ cs)
    (hnw : pyWhite c = false) : squeeze cs ≠ [] := by
  unfold squeeze
  have hws : splitWhite cs ≠ [] := splitWhite_ne_nil hc hnw
  match hw : splitWhite cs with
  | [] => exact absurd hw hws
  | w :: ws =>
    have hwne : w ≠ [] := (splitWhite_words cs w (by rw [hw]; simp)).1
    match w, hwne with
    | d :: w', _ =>
      intro hj
      have : d ∈ joinWords ((d :: w') :: ws) :=
        mem_joinWords_of_mem (w := d :: w') (by simp) (by simp)
      rw [hj] at this
      simp at this

/-- A character that survives lowering, Unicode normalization, and the
character filter: any `goodChar` in the input keeps `normalize_text` from
returning the empty string. -/
theorem norm_ne_empty {s : String} {c : Char} (hc : c ∈ s.data) (hg : goodChar c = true)
    (p : Bool) : normalize_text s p ≠ "" := by
  have ha : allowedChar c = true := goodChar_allowed hg
  have hlow : c ∈ s.data.map pyLower := by
    refine List.mem_map.mpr ⟨c, hc, ?_⟩
    exact pyLower_allowed ha
  have huni : c ∈ (if p then cmap nfkcChar (s.data.map pyLower)
      else cmap nfkdAsciiChar (s.data.map pyLower)) := by
    cases p
    · simp only [if_neg Bool.false_ne_true]
      exact mem_cmap.mpr ⟨c, hlow, by rw [nfkdAsciiChar_allowed ha]; simp⟩
    · simp only [if_pos rfl]
      rw [cmap_nfkc]
      exact hlow
  have hscrub : c ∈ scrub (if p then cmap nfkcChar (s.data.map pyLower)
      else cmap nfkdAsciiChar (s.data.map pyLower)) := by
    refine List.mem_map.mpr ⟨c, huni, ?_⟩
    rw [if_pos (keepChar_allowed ha)]
  exact mk_ne_empty (squeeze_ne_nil hscrub (goodChar_not_white hg))

/-- A nonempty normalization output contains a `goodChar`. -/
theorem norm_ne_has_good {s : String} {p : Bool} (h : normalize_text s p ≠ "") :
    ∃ c ∈ (normalize_text s p).data, goodChar c = true := by
  have hd : (normalize_text s p).data ≠ [] := by
    intro hnil
    apply h
    have : normalize_text s p = String.mk (normalize_text s p).data := rfl
    rw [this, hnil]
  have hdata : (normalize_text s p).data = joinWords (splitWhite (scrub
      (if p then cmap nfkcChar (s.data.map pyLower)
       else cmap nfkdAsciiChar (s.data.map pyLower)))) := rfl
  match hws : splitWhite (scrub (if p then cmap nfkcChar (s.data.map pyLower)
      else cmap nfkdAsciiChar (s.data.map pyLower))) with
  | [] =>
    rw [hdata, hws] at hd
    exact absurd rfl hd
  | w :: ws =>
    have hmem : w ∈ splitWhite (scrub (if p then cmap nfkcChar (s.data.map pyLower)
        else cmap nfkdAsciiChar (s.data.map pyLower))) := by rw [hws]; simp
    obtain ⟨hwne, hall⟩ := splitWhite_words _ w hmem
    match w, hwne with
    | d :: w', _ =>
      have hdmem : d ∈ (normalize_text s p).data := by
        rw [hdata, hws]
        exact mem_joinWords_of_mem (w := d :: w') (by simp) (by simp)
      refine ⟨d, hdmem, ?_⟩
      exact allowedChar_not_white_good (norm_data_allowed s p d hdmem) (hall d (by simp)).1

theorem fuzzyPass_eq_foldl (fz : Fuzz) (lab : String × String) (nm t : String) (st : ScanSt) :
    fuzzyPass fz lab nm t st =
      ((chunksOf t).map (fun ch =>
        FEntry.mk lab (max (fz.fullSim nm ch) (fz.subSim nm ch)) nm ch)).foldl (fUpd fz) st := by
  unfold fuzzyPass
  rw [List.foldl_map]
  rfl

theorem nameStep_noHit (fz : Fuzz) (lab : String × String) {nm t : String} (st : ScanSt)
    (h : exactPerfect nm t = false) :
    nameStep fz lab nm t st = (false, fuzzyPass fz lab nm t st) := by
  unfold nameStep
  rw [if_neg (by simp [h])]

theorem namesLoop_eq (fz : Fuzz) (labOf : String → String × String) (t : String) :
    ∀ (names : List String) (st : ScanSt), (∀ nm ∈ names, exactPerfect nm t = false) →
    namesLoop fz labOf names t st =
      (false, (cmap (fun nm => (chunksOf t).map (fun ch =>
        FEntry.mk (labOf nm) (max (fz.fullSim nm ch) (fz.subSim nm ch)) nm ch)) names).foldl
        (fUpd fz) st) := by
  intro names
  induction names with
  | nil =>
    intro st _
    simp [namesLoop, cmap]
  | cons nm rest ih =>
    intro st h
    rw [namesLoop, nameStep_noHit fz (labOf nm) st (h nm (by simp))]
    simp only [Bool.false_eq_true, if_false]
    rw [ih _ (fun x hx => h x (by simp [hx])), fuzzyPass_eq_foldl]
    simp only [cmap, List.foldl_append]

theorem textsLoop_eq (fz : Fuzz) (labOf : String → String × String) (names : List String) :
    ∀ (texts : List String) (st : ScanSt),
    (∀ t ∈ texts, ∀ nm ∈ names, exactPerfect nm t = false) →
    textsLoop fz labOf names texts st =
      (false, (cmap (fun t => cmap (fun nm => (chunksOf t).map (fun ch =>
        FEntry.mk (labOf nm) (max (fz.fullSim nm ch) (fz.subSim nm ch)) nm ch)) names)
        texts).foldl (fUpd fz) st) := by
  intro texts
  induction texts with
  | nil =>
    intro st _
    simp [textsLoop, cmap]
  | cons t rest ih =>
    intro st h
    rw [textsLoop, namesLoop_eq fz labOf t names st (h t (by simp))]
    simp only [Bool.false_eq_true, if_false]
    rw [ih _ (fun x hx => h x (by simp [hx]))]
    simp only [cmap, List.foldl_append]

theorem combosLoop_eq (fz : Fuzz) (lab : String × String) (texts : List String) :
    ∀ (combos : List (String × String)) (st : ScanSt),
    (∀ cb ∈ combos, ∀ nm ∈ [cb.1, cb.2], ∀ t ∈ texts, exactPerfect nm t = false) →
    combosLoop fz lab combos texts st =
      (false, (cmap (fun cb => cmap (fun t => cmap (fun nm => (chunksOf t).map (fun ch =>
        FEntry.mk lab (max (fz.fullSim nm ch) (fz.subSim nm ch)) nm ch)) [cb.1, cb.2]) texts)
        combos).foldl (fUpd fz) st) := by
  intro combos
  induction combos with
  | nil =>
    intro st _
    simp [combosLoop, cmap]
  | cons cb rest ih =>
    intro st h
    rw [combosLoop, textsLoop_eq fz (fun _ => lab) [cb.1, cb.2] texts st
      (fun t ht nm hnm => h cb (by simp) nm hnm t ht)]
    simp only [Bool.false_eq_true, if_false]
    rw [ih _ (fun x hx => h x (by simp [hx]))]
    simp only [cmap, List.foldl_append]

theorem pairsLoop_eq (fz : Fuzz) (alpha : List (String × String)) (texts : List String) :
    ∀ (idx : List (Nat × Nat)) (st : ScanSt),
    (∀ ij ∈ idx, ∀ cb ∈ combosOf (alpha.getD ij.1 ("", "")) (alpha.getD ij.2 ("", "")),
      ∀ nm ∈ [cb.1, cb.2], ∀ t ∈ texts, exactPerfect nm t = false) →
    pairsLoop fz alpha texts idx st =
      (false, (cmap (fun ij =>
        cmap (fun cb => cmap (fun t => cmap (fun nm => (chunksOf t).map (fun ch =>
            FEntry.mk ((alpha.getD ij.1 ("", "")).2, (alpha.getD ij.2 ("", "")).2)
              (max (fz.fullSim nm ch) (fz.subSim nm ch)) nm ch)) [cb.1, cb.2]) texts)
          (combosOf (alpha.getD ij.1 ("", "")) (alpha.getD ij.2 ("", ""))))
        idx).foldl (fUpd fz) st) := by
  intro idx
  induction idx with
  | nil =>
    intro st _
    simp [pairsLoop, cmap]
  | cons ij rest ih =>
    intro st h
    simp only [pairsLoop]
    rw [combosLoop_eq fz ((alpha.getD ij.1 ("", "")).2, (alpha.getD ij.2 ("", "")).2)
      texts (combosOf (alpha.getD ij.1 ("", "")) (alpha.getD ij.2 ("", ""))) st
      (h ij (by simp))]
    simp only [Bool.false_eq_true, if_false]
    rw [ih _ (fun x hx => h x (by simp [hx]))]
    simp only [cmap, List.foldl_append]

theorem fUpd_score_le (fz : Fuzz) (st : ScanSt) (e : FEntry) :
    (fUpd fz st e).score ≤ max st.score 99 := by
  unfold fUpd
  split
  · simp only [PERFECT_MATCH_THRESHOLD]
    omega
  · exact Nat.le_max_left _ _

theorem foldl_fUpd_le (fz : Fuzz) : ∀ (l : List FEntry) (st : ScanSt),
    ((l.foldl (fUpd fz) st)).score ≤ max st.score 99 := by
  intro l
  induction l with
  | nil => intro st; simp
  | cons e rest ih =>
    intro st
    have h1 := ih (fUpd fz st e)
    have h2 := fUpd_score_le fz st e
    simp only [List.foldl_cons]
    omega

theorem foldl_fUpd_le99 (fz : Fuzz) {l : List FEntry} {st : ScanSt} (h : st.score ≤ 99) :
    ((l.foldl (fUpd fz) st)).score ≤ 99 := by
  have := foldl_fUpd_le fz l st
  omega

theorem foldl_fUpd_le100 (fz : Fuzz) {l : List FEntry} {st : ScanSt} (h : st.score ≤ 100) :
    ((l.foldl (fUpd fz) st)).score ≤ 100 := by
  have := foldl_fUpd_le fz l st
  omega

theorem nameStep_le100 (fz : Fuzz) (lab : String × String) (nm t : String) (st : ScanSt)
    (h : st.score ≤ 100) : (nameStep fz lab nm t st).2.score ≤ 100 := by
  unfold nameStep
  split
  · exact Nat.le_refl _
  · rw [fuzzyPass_eq_foldl]
    exact foldl_fUpd_le100 fz h

theorem namesLoop_le100 (fz : Fuzz) (labOf : String → String × String) (t : String) :
    ∀ (names : List String) (st : ScanSt), st.score ≤ 100 →
    (namesLoop fz labOf names t st).2.score ≤ 100 := by
  intro names
  induction names with
  | nil => intro st h; exact h
  | cons nm rest ih =>
    intro st h
    rw [namesLoop]
    have h1 := nameStep_le100 fz (labOf nm) nm t st h
    split
    · exact h1
    · exact ih _ h1

theorem textsLoop_le100 (fz : Fuzz) (labOf : String → String × String) (names : List String) :
    ∀ (texts : List String) (st : ScanSt), st.score ≤ 100 →
    (textsLoop fz labOf names texts st).2.score ≤ 100 := by
  intro texts
  induction texts with
  | nil => intro st h; exact h
  | cons t rest ih =>
    intro st h
    rw [textsLoop]
    have h1 := namesLoop_le100 fz labOf t names st h
    split
    · exact h1
    · exact ih _ h1

theorem combosLoop_le100 (fz : Fuzz) (lab : String × String) (texts : List String) :
    ∀ (combos : List (String × String)) (st : ScanSt), st.score ≤ 100 →
    (combosLoop fz lab combos texts st).2.score ≤ 100 := by
  intro combos
  induction combos with
  | nil => intro st h; exact h
  | cons cb rest ih =>
    intro st h
    rw [combosLoop]
    have h1 := textsLoop_le100 fz (fun _ => lab) [cb.1, cb.2] texts st h
    split
    · exact h1
    · exact ih _ h1

theorem pairsLoop_le100 (fz : Fuzz) (alpha : List (String × String)) (texts : List String) :
    ∀ (idx : List (Nat × Nat)) (st : ScanSt), st.score ≤ 100 →
    (pairsLoop fz alpha texts idx st).2.score ≤ 100 := by
  intro idx
  induction idx with
  | nil => intro st h; exact h
  | cons ij rest ih =>
    intro st h
    simp only [pairsLoop]
    have h1 := combosLoop_le100 fz ((alpha.getD ij.1 ("", "")).2, (alpha.getD ij.2 ("", "")).2)
      texts (combosOf (alpha.getD ij.1 ("", "")) (alpha.getD ij.2 ("", ""))) st h
    split
    · exact h1
    · exact ih _ h1

theorem check_core_le100 (fz : Fuzz) (tokens : List (String × String)) (pdfText : String) :
    (check_name_core fz tokens pdfText).best_score ≤ 100 := by
  simp only [check_name_core]
  split
  · exact Nat.zero_le _
  · have hr1 : ∀ r1 : Bool × ScanSt, r1.2.score ≤ 100 →
        (if r1.1 then r1.2 else (pairsLoop fz (alphaOf tokens) (textsOf pdfText)
          (pairIdx (alphaOf tokens).length) r1.2).2).score ≤ 100 := by
      intro r1 h
      split
      · exact h
      · exact pairsLoop_le100 fz _ _ _ _ h
    apply hr1
    split
    · exact textsLoop_le100 fz _ _ _ _ (by simp)
    · simp

theorem listMax_cons (a x : Nat) (l : List Nat) : listMax a (x :: l) = listMax (max a x) l := rfl

theorem le_listMax (a : Nat) : ∀ l : List Nat, a ≤ listMax a l := by
  intro l
  induction l generalizing a with
  | nil => exact Nat.le_refl _
  | cons x l ih =>
    rw [listMax_cons]
    exact Nat.le_trans (Nat.le_max_left a x) (ih (max a x))

theorem foldl_fUpd_spec (fz : Fuzz) : ∀ (l : List FEntry) (st : ScanSt),
    st.score ≤ 99 → (∀ e ∈ l, e.raw ≤ 99) →
    ((l.foldl (fUpd fz) st).score = listMax st.score (l.map FEntry.raw)) ∧
    ((l.foldl (fUpd fz) st).score = st.score → l.foldl (fUpd fz) st = st) ∧
    (st.score < (l.foldl (fUpd fz) st).score →
      ∃ k, k < l.length ∧
        (l.getD k ⟨("", ""), 0, "", ""⟩).raw = (l.foldl (fUpd fz) st).score ∧
        (∀ m, m < k → (l.getD m ⟨("", ""), 0, "", ""⟩).raw < (l.foldl (fUpd fz) st).score) ∧
        (l.foldl (fUpd fz) st).pair = some (l.getD k ⟨("", ""), 0, "", ""⟩).lab) := by
  intro l
  induction l with
  | nil =>
    intro st _ _
    refine ⟨rfl, fun _ => rfl, fun h => absurd h (Nat.lt_irrefl _)⟩
  | cons e rest ih =>
    intro st hst hall
    have heraw : e.raw ≤ 99 := hall e (by simp)
    by_cases he : e.raw > st.score
    · -- the head entry strictly improves the best score
      have hupd : fUpd fz st e =
          { score := e.raw, pair := some e.lab, matched := get_best_ngram_match fz e.nm e.ch } := by
        unfold fUpd
        rw [if_pos he]
        simp only [PERFECT_MATCH_THRESHOLD]
        congr 1
        omega
      have hfold : (e :: rest).foldl (fUpd fz) st = rest.foldl (fUpd fz) (fUpd fz st e) := rfl
      obtain ⟨ihs, ihid, ihex⟩ := ih (fUpd fz st e) (by rw [hupd]; exact heraw)
        (fun x hx => hall x (by simp [hx]))
      have hscore : ((e :: rest).foldl (fUpd fz) st).score =
          listMax st.score ((e :: rest).map FEntry.raw) := by
        rw [hfold, ihs, hupd]
        simp only [List.map_cons, listMax_cons]
        congr 1
        omega
      have hge : e.raw ≤ ((e :: rest).foldl (fUpd fz) st).score := by
        rw [hfold, ihs, hupd]
        exact le_listMax _ _
      refine ⟨hscore, ?_, ?_⟩
      · intro h0
        omega
      · intro _
        by_cases hfe : (rest.foldl (fUpd fz) (fUpd fz st e)).score = (fUpd fz st e).score
        · have hid := ihid hfe
          refine ⟨0, by simp, ?_, by omega, ?_⟩
          · rw [hfold, hid, hupd]
            simp
          · rw [hfold, hid, hupd]
            simp
        · have hlt : (fUpd fz st e).score < (rest.foldl (fUpd fz) (fUpd fz st e)).score := by
            have := le_listMax (fUpd fz st e).score (rest.map FEntry.raw)
            rw [← ihs] at this
            omega
          obtain ⟨k, hk, hraw, hbefore, hpair⟩ := ihex hlt
          refine ⟨k + 1, by simpa using hk, ?_, ?_, ?_⟩
          · rw [List.getD_cons_succ, hfold]
            exact hraw
          · intro m hm
            match m with
            | 0 =>
              rw [List.getD_cons_zero, hfold, hupd]
              rw [hupd] at hlt
              simpa using hlt
            | m' + 1 =>
              rw [List.getD_cons_succ, hfold]
              exact hbefore m' (by omega)
          · rw [List.getD_cons_succ, hfold]
            exact hpair
    · -- the head entry does not improve the best score
      have hupd : fUpd fz st e = st := by
        unfold fUpd
        rw [if_neg he]
      have hfold : (e :: rest).foldl (fUpd fz) st = rest.foldl (fUpd fz) st := by
        show rest.foldl (fUpd fz) (fUpd fz st e) = _
        rw [hupd]
      obtain ⟨ihs, ihid, ihex⟩ := ih st hst (fun x hx => hall x (by simp [hx]))
      have hscore : ((e :: rest).foldl (fUpd fz) st).score =
          listMax st.score ((e :: rest).map FEntry.raw) := by
        rw [hfold, ihs]
        simp only [List.map_cons, listMax_cons]
        congr 1
        omega
      refine ⟨hscore, ?_, ?_⟩
      · intro h0
        rw [hfold] at h0 ⊢
        exact ihid h0
      · intro hlt
        rw [hfold] at hlt
        obtain ⟨k, hk, hraw, hbefore, hpair⟩ := ihex hlt
        refine ⟨k + 1, by simpa using hk, ?_, ?_, ?_⟩
        · rw [List.getD_cons_succ, hfold]
          exact hraw
        · intro m hm
          match m with
          | 0 =>
            rw [List.getD_cons_zero, hfold]
            omega
          | m' + 1 =>
            rw [List.getD_cons_succ, hfold]
            exact hbefore m' (by omega)
        · rw [List.getD_cons_succ, hfold]
          exact hpair

theorem mem_rangeFrom {a b j : Nat} : j ∈ rangeFrom a b ↔ a ≤ j ∧ j < b := by
  unfold rangeFrom
  simp only [List.mem_map, List.mem_range]
  constructor
  · rintro ⟨k, hk, rfl⟩
    omega
  · rintro ⟨h1, h2⟩
    exact ⟨j - a, by omega, by omega⟩

theorem mem_pairIdx {n i j : Nat} : (i, j) ∈ pairIdx n ↔ i < j ∧ j < n := by
  unfold pairIdx
  rw [mem_cmap]
  constructor
  · rintro ⟨a, ha, hmem⟩
    simp only [List.mem_map] at hmem
    obtain ⟨j', hj', hpair⟩ := hmem
    cases hpair
    obtain ⟨h1, h2⟩ := mem_rangeFrom.mp hj'
    omega
  · rintro ⟨h1, h2⟩
    refine ⟨i, List.mem_range.mpr (by omega), ?_⟩
    simp only [List.mem_map]
    exact ⟨j, mem_rangeFrom.mpr ⟨by omega, h2⟩, rfl⟩

theorem sum_map_succ {l : List Nat} {f g : Nat → Nat} (h : ∀ x ∈ l, f x = g x + 1) :
    (l.map f).sum = (l.map g).sum + l.length := by
  induction l with
  | nil => simp
  | cons a l ih =>
    simp only [List.map_cons, List.sum_cons, List.length_cons,
      ih (fun x hx => h x (by simp [hx])), h a (by simp)]
    omega

theorem rangeFrom_length (a b : Nat) : (rangeFrom a b).length = b - a := by
  simp [rangeFrom]

theorem pairIdx_sum (n : Nat) :
    (pairIdx n).length = ((List.range n).map (fun i => n - i - 1)).sum := by
  unfold pairIdx
  rw [length_cmap]
  congr 1
  apply List.map_congr_left
  intro i _
  simp only [List.length_map, rangeFrom_length]
  omega

theorem pairIdx_double (n : Nat) : 2 * (pairIdx n).length = n * (n - 1) := by
  rw [pairIdx_sum]
  induction n with
  | zero => simp
  | succ m ih =>
    have hsum : ((List.range m).map (fun i => m - i)).sum =
        ((List.range m).map (fun i => m - i - 1)).sum + m := by
      rw [sum_map_succ (f := fun i => m - i) (g := fun i => m - i - 1) ?_]
      · simp
      · intro x hx
        rw [List.mem_range] at hx
        show m - x = m - x - 1 + 1
        omega
    have hstep : ((List.range (m + 1)).map (fun i => m + 1 - i - 1)).sum
        = ((List.range m).map (fun i => m - i - 1)).sum + m := by
      rw [List.range_succ, List.map_append, List.sum_append]
      have hfun : (List.range m).map (fun i => m + 1 - i - 1) =
          (List.range m).map (fun i => m - i) := by
        apply List.map_congr_left
        intro i _
        show m + 1 - i - 1 = m - i
        omega
      rw [hfun, hsum]
      simp
    rw [hstep]
    have hm : m * (m - 1) + 2 * m = (m + 1) * m := by
      cases m with
      | zero => simp
      | succ k =>
        simp only [Nat.succ_sub_one]
        ring
    have hgoal : (m + 1) * (m + 1 - 1) = (m + 1) * m := by
      simp
    rw [hgoal]
    linarith [ih, hm]

theorem pairIdx_length (n : Nat) : (pairIdx n).length = n * (n - 1) / 2 := by
  have := pairIdx_double n
  omega

theorem pairwise_cmap {R : α → α → Prop} {f : β → List α} :
    ∀ {l : List β}, (∀ b ∈ l, (f b).Pairwise R) →
    l.Pairwise (fun b b' => ∀ x ∈ f b, ∀ y ∈ f b', R x y) →
    (cmap f l).Pairwise R := by
  intro l
  induction l with
  | nil => intro _ _; simp [cmap]
  | cons a l ih =>
    intro h1 h2
    show (f a ++ cmap f l).Pairwise R
    rw [List.pairwise_append]
    obtain ⟨hcross, htail⟩ := List.pairwise_cons.mp h2
    refine ⟨h1 a (by simp), ih (fun b hb => h1 b (by simp [hb])) htail, ?_⟩
    intro x hx y hy
    obtain ⟨b, hb, hyb⟩ := mem_cmap.mp hy
    exact hcross b hb x hx y hyb

theorem rangeFrom_sorted (a b : Nat) : (rangeFrom a b).Pairwise (· < ·) := by
  unfold rangeFrom
  rw [List.pairwise_map]
  exact (List.pairwise_lt_range _).imp (by omega)

theorem pairIdx_sorted (n : Nat) : (pairIdx n).Pairwise pairLt := by
  unfold pairIdx
  apply pairwise_cmap
  · intro i _
    rw [List.pairwise_map]
    refine (rangeFrom_sorted (i + 1) n).imp ?_
    intro j j' hj
    exact Or.inr ⟨rfl, hj⟩
  · refine (List.pairwise_lt_range n).imp ?_
    intro i i' hii
    intro x hx y hy
    simp only [List.mem_map] at hx hy
    obtain ⟨j, _, rfl⟩ := hx
    obtain ⟨j', _, rfl⟩ := hy
    exact Or.inl hii

theorem scanNames_pair_mem {alpha : List (String × String)} {ij : Nat × Nat}
    {cb : String × String} {nm : String} (hij : ij ∈ pairIdx alpha.length)
    (hcb : cb ∈ combosOf (alpha.getD ij.1 ("", "")) (alpha.getD ij.2 ("", "")))
    (hnm : nm ∈ [cb.1, cb.2]) : nm ∈ scanNames alpha := by
  unfold scanNames
  apply List.mem_append_right
  exact mem_cmap.mpr ⟨ij, hij, mem_cmap.mpr ⟨cb, hcb, hnm⟩⟩

theorem pairsLoop_pairEntries (fz : Fuzz) (alpha : List (String × String))
    (texts : List String) (st : ScanSt)
    (H : ∀ nm ∈ scanNames alpha, ∀ t ∈ texts, exactPerfect nm t = false) :
    pairsLoop fz alpha texts (pairIdx alpha.length) st =
      (false, (pairEntries fz alpha texts).foldl (fUpd fz) st) := by
  rw [pairsLoop_eq fz alpha texts (pairIdx alpha.length) st
    (fun ij hij cb hcb nm hnm t ht => H nm (scanNames_pair_mem hij hcb hnm) t ht)]
  rfl

theorem check_core_noHit (fz : Fuzz) (tokens : List (String × String)) (pdfText : String)
    (hn : 2 ≤ (alphaOf tokens).length)
    (H : ∀ nm ∈ scanNames (alphaOf tokens), ∀ t ∈ textsOf pdfText, exactPerfect nm t = false) :
    check_name_core fz tokens pdfText =
      { best_pair := ((pairEntries fz (alphaOf tokens) (textsOf pdfText)).foldl (fUpd fz)
          ⟨0, none, ""⟩).pair,
        best_score := ((pairEntries fz (alphaOf tokens) (textsOf pdfText)).foldl (fUpd fz)
          ⟨0, none, ""⟩).score,
        matched_text := ((pairEntries fz (alphaOf tokens) (textsOf pdfText)).foldl (fUpd fz)
          ⟨0, none, ""⟩).matched,
        error := none } := by
  obtain ⟨a, b, l, hA⟩ : ∃ a b l, alphaOf tokens = a :: b :: l := by
    match hA : alphaOf tokens with
    | [] => rw [hA] at hn; simp at hn
    | [t] => rw [hA] at hn; simp at hn
    | a :: b :: l => exact ⟨a, b, l, rfl⟩
  simp only [check_name_core]
  rw [hA] at H ⊢
  rw [if_neg (by simp)]
  have hploop := pairsLoop_pairEntries fz (a :: b :: l) (textsOf pdfText) ⟨0, none, ""⟩ H
  simp only [hploop]
  simp

theorem scanNames_single_mem {tok : String × String} {nm : String}
    (h : nm ∈ [tok.1, tok.2]) : nm ∈ scanNames [tok] := by
  unfold scanNames
  exact List.mem_append_left _ h

theorem pairIdx_one : pairIdx 1 = [] := by decide

theorem check_core_noHit_le99 (fz : Fuzz) (tokens : List (String × String)) (pdfText : String)
    (H : ∀ nm ∈ scanNames (alphaOf tokens), ∀ t ∈ textsOf pdfText, exactPerfect nm t = false) :
    (check_name_core fz tokens pdfText).best_score ≤ 99 := by
  match hA : alphaOf tokens with
  | [] =>
    simp only [check_name_core, hA]
    simp
  | [tok] =>
    rw [hA] at H
    simp only [check_name_core, hA]
    rw [if_neg (by simp)]
    rw [textsLoop_eq fz (fun nm => (nm, "")) [tok.1, tok.2] (textsOf pdfText) ⟨0, none, ""⟩
      (fun t ht nm hnm => H nm (scanNames_single_mem hnm) t ht)]
    simp only [List.length_cons, List.length_nil, Nat.zero_add, pairIdx_one, pairsLoop]
    simp only [Bool.false_eq_true, if_false]
    exact foldl_fUpd_le99 fz (by simp)
  | a :: b :: l =>
    have hn : 2 ≤ (alphaOf tokens).length := by rw [hA]; simp
    rw [check_core_noHit fz tokens pdfText hn H]
    exact foldl_fUpd_le99 fz (by simp)

theorem chunksOf_empty : chunksOf "" = [] := by decide

theorem textsOf_empty : textsOf "" = ["", ""] := by decide

theorem exactPerfect_empty_text {nm : String} (h : normalize_text nm false ≠ "") :
    exactPerfect nm "" = false := by
  unfold exactPerfect find_exact_word_match
  split
  · next hocc =>
    exfalso
    have hlen := occursIn_length hocc
    have hne : (normalize_text nm false).data ≠ [] := by
      intro hnil
      apply h
      have heq : normalize_text nm false = String.mk (normalize_text nm false).data := rfl
      rw [heq, hnil]
    have h0 : (normalize_text "" false).data = [] := rfl
    rw [h0] at hlen
    simp only [List.length_append, List.length_cons] at hlen
    match hd : (normalize_text nm false).data with
    | [] => exact hne hd
    | _ :: _ =>
      rw [hd] at hlen
      simp at hlen
  · simp

theorem getD_mem {l : List α} {i : Nat} {d : α} (h : i < l.length) : l.getD i d ∈ l := by
  rw [List.getD_eq_getElem l d h]
  exact List.getElem_mem h

theorem extract_shape {fn : String} {tk : String × String}
    (h : tk ∈ extract_name_tokens fn) :
    ∃ part, tk = (normalize_text part false, normalize_text part true) := by
  unfold extract_name_tokens at h
  rw [List.mem_filterMap] at h
  obtain ⟨part, _, hpart⟩ := h
  refine ⟨part, ?_⟩
  split at hpart
  · exact (Option.some.injEq _ _ ▸ hpart).symm
  · cases hpart

theorem mem_alphaOf {tokens : List (String × String)} {tk : String × String} :
    tk ∈ alphaOf tokens ↔ tk ∈ tokens ∧ pyIsAlpha tk.1 = true := by
  unfold alphaOf
  rw [List.mem_filter]

theorem pyIsAlpha_ne_empty {s : String} (h : pyIsAlpha s = true) : s ≠ "" := by
  intro he
  subst he
  simp [pyIsAlpha] at h

theorem mem_data_append_left {x y : String} {c : Char} (h : c ∈ x.data) :
    c ∈ (x ++ y).data := by
  rw [String.data_append]
  exact List.mem_append_left _ h

/-- Every candidate name generated from normal-form tokens with nonempty
components has a nonempty accent-stripped normalization. -/
theorem scanNames_norm_ne {alpha : List (String × String)}
    (hshape : ∀ tk ∈ alpha, ∃ part, tk = (normalize_text part false, normalize_text part true))
    (halpha : ∀ tk ∈ alpha, pyIsAlpha tk.1 = true)
    (h2 : ∀ tk ∈ alpha, tk.2 ≠ "") :
    ∀ nm ∈ scanNames alpha, normalize_text nm false ≠ "" := by
  have hcomp : ∀ tk ∈ alpha, ∀ s ∈ [tk.1, tk.2], s ≠ "" → normalize_text s false ≠ "" := by
    intro tk htk s hs hne
    obtain ⟨part, hpart⟩ := hshape tk htk
    rcases List.mem_cons.mp hs with rfl | hs2
    · rw [hpart]
      show normalize_text (normalize_text part false) false ≠ ""
      rw [norm_of_norm]
      rw [hpart] at hne
      exact hne
    · rcases List.mem_cons.mp hs2 with rfl | hs3
      · rw [hpart]
        show normalize_text (normalize_text part true) false ≠ ""
        rw [norm_of_norm]
        rw [hpart] at hne
        exact hne
      · simp at hs3
  have hlead : ∀ tk ∈ alpha, ∀ s ∈ [tk.1, tk.2], ∀ x y : String,
      normalize_text (s ++ x ++ y) false ≠ "" := by
    intro tk htk s hs x y
    have hsne : s ≠ "" := by
      rcases List.mem_cons.mp hs with rfl | hs2
      · exact pyIsAlpha_ne_empty (halpha tk htk)
      · rcases List.mem_cons.mp hs2 with rfl | hs3
        · exact h2 tk htk
        · simp at hs3
    have hnorm : normalize_text s false ≠ "" := hcomp tk htk s hs hsne
    obtain ⟨part, hpart⟩ := hshape tk htk
    have hself : normalize_text s false = s := by
      rcases List.mem_cons.mp hs with rfl | hs2
      · rw [hpart]; exact norm_of_norm part false false
      · rcases List.mem_cons.mp hs2 with rfl | hs3
        · rw [hpart]; exact norm_of_norm part true false
        · simp at hs3
    obtain ⟨c, hc, hgood⟩ := norm_ne_has_good (p := false) hnorm
    rw [hself] at hc
    exact norm_ne_empty (mem_data_append_left (mem_data_append_left hc)) hgood false
  intro nm hnm
  unfold scanNames at hnm
  rcases List.mem_append.mp hnm with hsingle | hpairs
  · match alpha, hsingle, hcomp, halpha, h2 with
    | [tok], hs, hcomp, halpha, h2 =>
      have htok : tok ∈ [tok] := by simp
      rcases List.mem_cons.mp hs with rfl | hs2
      · exact hcomp tok htok tok.1 (by simp) (pyIsAlpha_ne_empty (halpha tok htok))
      · rcases List.mem_cons.mp hs2 with rfl | hs3
        · exact hcomp tok htok tok.2 (by simp) (h2 tok htok)
        · simp at hs3
  · obtain ⟨ij, hij, hin⟩ := mem_cmap.mp hpairs
    obtain ⟨cb, hcb, hnm2⟩ := mem_cmap.mp hin
    obtain ⟨hij1, hij2⟩ := mem_pairIdx.mp (show (ij.1, ij.2) ∈ pairIdx alpha.length from hij)
    have hfi : alpha.getD ij.1 ("", "") ∈ alpha := getD_mem (by omega)
    have hla : alpha.getD ij.2 ("", "") ∈ alpha := getD_mem hij2
    set fi := alpha.getD ij.1 ("", "") with hfidef
    set la := alpha.getD ij.2 ("", "") with hladef
    have h6 : cb ∈ [(fi.1 ++ " " ++ la.1, fi.2 ++ " " ++ la.2),
        (la.1 ++ " " ++ fi.1, la.2 ++ " " ++ fi.2),
        (fi.1 ++ ", " ++ la.1, fi.2 ++ ", " ++ la.2)] := hcb
    rcases List.mem_cons.mp h6 with rfl | hc2
    · rcases List.mem_cons.mp hnm2 with rfl | hn2
      · show normalize_text (fi.1 ++ " " ++ la.1) false ≠ ""
        exact hlead fi hfi fi.1 (by simp) " " la.1
      · rcases List.mem_cons.mp hn2 with rfl | hn3
        · show normalize_text (fi.2 ++ " " ++ la.2) false ≠ ""
          exact hlead fi hfi fi.2 (by simp) " " la.2
        · simp at hn3
    · rcases List.mem_cons.mp hc2 with rfl | hc3
      · rcases List.mem_cons.mp hnm2 with rfl | hn2
        · show normalize_text (la.1 ++ " " ++ fi.1) false ≠ ""
          exact hlead la hla la.1 (by simp) " " fi.1
        · rcases List.mem_cons.mp hn2 with rfl | hn3
          · show normalize_text (la.2 ++ " " ++ fi.2) false ≠ ""
            exact hlead la hla la.2 (by simp) " " fi.2
          · simp at hn3
      · rcases List.mem_cons.mp hc3 with rfl | hc4
        · rcases List.mem_cons.mp hnm2 with rfl | hn2
          · show normalize_text (fi.1 ++ ", " ++ la.1) false ≠ ""
            exact hlead fi hfi fi.1 (by simp) ", " la.1
          · rcases List.mem_cons.mp hn2 with rfl | hn3
            · show normalize_text (fi.2 ++ ", " ++ la.2) false ≠ ""
              exact hlead fi hfi fi.2 (by simp) ", " la.2
            · simp at hn3
        · simp at hc4

theorem pairEntries_empty_doc (fz : Fuzz) (alpha : List (String × String)) :
    pairEntries fz alpha (textsOf "") = [] := by
  unfold pairEntries
  apply cmap_eq_nil
  intro ij _
  apply cmap_eq_nil
  intro cb _
  rw [textsOf_empty]
  apply cmap_eq_nil
  intro t ht
  apply cmap_eq_nil
  intro nm _
  have ht0 : t = "" := by
    rcases List.mem_cons.mp ht with rfl | ht2
    · rfl
    · rcases List.mem_cons.mp ht2 with rfl | ht3
      · rfl
      · simp at ht3
  rw [ht0, chunksOf_empty]
  rfl

theorem check_core_empty_doc (fz : Fuzz) (tokens : List (String × String))
    (hshape : ∀ tk ∈ alphaOf tokens,
      ∃ part, tk = (normalize_text part false, normalize_text part true))
    (hne : alphaOf tokens ≠ [])
    (h2 : ∀ tk ∈ alphaOf tokens, tk.2 ≠ "") :
    check_name_core fz tokens "" =
      { best_pair := none, best_score := 0, matched_text := "", error := none } := by
  have halpha : ∀ tk ∈ alphaOf tokens, pyIsAlpha tk.1 = true :=
    fun tk htk => (mem_alphaOf.mp htk).2
  have hnames := scanNames_norm_ne hshape halpha h2
  have H : ∀ nm ∈ scanNames (alphaOf tokens), ∀ t ∈ textsOf "",
      exactPerfect nm t = false := by
    intro nm hnm t ht
    have ht0 : t = "" := by
      rw [textsOf_empty] at ht
      rcases List.mem_cons.mp ht with rfl | ht2
      · rfl
      · rcases List.mem_cons.mp ht2 with rfl | ht3
        · rfl
        · simp at ht3
    rw [ht0]
    exact exactPerfect_empty_text (hnames nm hnm)
  match hA : alphaOf tokens with
  | [] => exact absurd hA hne
  | [tok] =>
    rw [hA] at H
    simp only [check_name_core, hA]
    rw [if_neg (by simp)]
    rw [textsLoop_eq fz (fun nm => (nm, "")) [tok.1, tok.2] (textsOf "") ⟨0, none, ""⟩
      (fun t ht nm hnm => H nm (scanNames_single_mem hnm) t ht)]
    have hentries : (cmap (fun t => cmap (fun nm => (chunksOf t).map (fun ch =>
        FEntry.mk ((fun nm => (nm, "")) nm) (max (fz.fullSim nm ch) (fz.subSim nm ch)) nm ch))
        [tok.1, tok.2]) (textsOf "")) = [] := by
      rw [textsOf_empty]
      apply cmap_eq_nil
      intro t ht
      apply cmap_eq_nil
      intro nm _
      have ht0 : t = "" := by
        rcases List.mem_cons.mp ht with rfl | ht2
        · rfl
        · rcases List.mem_cons.mp ht2 with rfl | ht3
          · rfl
          · simp at ht3
      rw [ht0, chunksOf_empty]
      rfl
    rw [hentries]
    simp only [List.length_cons, List.length_nil, Nat.zero_add, pairIdx_one, pairsLoop]
    simp
  | a :: b :: l =>
    have hn : 2 ≤ (alphaOf tokens).length := by rw [hA]; simp
    rw [check_core_noHit fz tokens "" hn H]
    rw [pairEntries_empty_doc]
    rfl

theorem classify_none_perfect_iff (s : Nat) :
    classify none s = Verdict.perfectMatch ↔ PERFECT_MATCH_THRESHOLD ≤ s := by
  unfold classify
  constructor
  · intro h
    by_cases h30 : s < NO_MATCH_THRESHOLD
    · rw [if_pos h30] at h
      exact absurd h (by decide)
    · rw [if_neg h30] at h
      by_cases h100 : s < PERFECT_MATCH_THRESHOLD
      · rw [if_pos h100] at h
        exact absurd h (by decide)
      · omega
  · intro h
    have h30 : ¬ s < NO_MATCH_THRESHOLD := by
      simp only [NO_MATCH_THRESHOLD, PERFECT_MATCH_THRESHOLD] at *
      omega
    have h100 : ¬ s < PERFECT_MATCH_THRESHOLD := by omega
    rw [if_neg h30, if_neg h100]

theorem classify_le99_ne_perfect (e : Option String) (s : Nat) (h : s ≤ 99) :
    classify e s ≠ Verdict.perfectMatch := by
  intro hcl
  match e with
  | some msg =>
    have hred : classify (some msg) s = Verdict.error := rfl
    rw [hred] at hcl
    exact Verdict.noConfusion hcl
  | none =>
    have h100 := (classify_none_perfect_iff s).mp hcl
    simp only [PERFECT_MATCH_THRESHOLD] at h100
    omega

theorem pairEntries_raw_le {fz : Fuzz} {alpha : List (String × String)} {texts : List String}
    (Hfz : ∀ nm ch : String, fz.fullSim nm ch ≤ 99 ∧ fz.subSim nm ch ≤ 99) :
    ∀ e ∈ pairEntries fz alpha texts, e.raw ≤ 99 := by
  intro e he
  unfold pairEntries at he
  obtain ⟨ij, _, he⟩ := mem_cmap.mp he
  obtain ⟨cb, _, he⟩ := mem_cmap.mp he
  obtain ⟨t, _, he⟩ := mem_cmap.mp he
  obtain ⟨nm, _, he⟩ := mem_cmap.mp he
  obtain ⟨ch, _, rfl⟩ := List.mem_map.mp he
  have h1 := (Hfz nm ch).1
  have h2 := (Hfz nm ch).2
  simp only []
  omega

/-- C1: the specification's sub-name guard (spec §4.4 and §8; implemented by
`find_exact_word_match` in `Duplicate_name_finder_improved_v2.py`) is absent
from the engine of `Matching_name_verification.py`: its
`find_exact_word_match` is plain whole-word phrase containment, and the
`is_bidirectional_match` check it feeds is vacuous because the matched text
returned is the searched word itself.  For file name "ana.pdf" and document
text "ana maria lopez", the single-token candidate "ana" is declared a
perfect match with score 100 instead of falling through to fuzzy scoring,
for every similarity oracle. -/
theorem c1_no_subname_guard (fz : Fuzz) :
    check_name_in_pdf fz "ana.pdf" "ana maria lopez" none =
      { best_pair := some ("ana", ""), best_score := 100, matched_text := "ana",
        error := none } ∧
    classifyResult (check_name_in_pdf fz "ana.pdf" "ana maria lopez" none) =
      Verdict.perfectMatch :=
  ⟨rfl, rfl⟩

/-- C2: a score produced solely by the fuzzy scorer is clamped to
`PERFECT_MATCH_THRESHOLD - 1` (lines 176 and 218): whenever no candidate
name achieves an exact whole-phrase perfect hit against either normalized
document text, the engine's best score is at most 99 and the verdict can
never be PerfectMatch, for every similarity oracle whatsoever. -/
theorem c2_fuzzy_clamp (fz : Fuzz) (tokens : List (String × String)) (pdfText : String)
    (H : ∀ nm ∈ scanNames (alphaOf tokens), ∀ t ∈ textsOf pdfText,
      exactPerfect nm t = false) :
    (check_name_core fz tokens pdfText).best_score ≤ PERFECT_MATCH_THRESHOLD - 1 ∧
    classifyResult (check_name_core fz tokens pdfText) ≠ Verdict.perfectMatch := by
  have hb := check_core_noHit_le99 fz tokens pdfText H
  exact ⟨by simpa [PERFECT_MATCH_THRESHOLD] using hb,
    classify_le99_ne_perfect _ _ hb⟩

/-- C2 witness: a single-token file name whose candidate has no exact hit in
the text "xyz qrs"; the fuzzy-only best score stays at most 99 and the
verdict is not perfect. -/
theorem c2_fuzzy_clamp_witness :
    (check_name_core zeroFuzz [("bob", "bob")] "xyz qrs").best_score ≤
      PERFECT_MATCH_THRESHOLD - 1 ∧
    classifyResult (check_name_core zeroFuzz [("bob", "bob")] "xyz qrs") ≠
      Verdict.perfectMatch :=
  c2_fuzzy_clamp zeroFuzz [("bob", "bob")] "xyz qrs" (by decide)

/-- C3 counterexample: `normalize_text("José", preserve_accents=True)`
returns "jos" — the accented letter 'é' is NOT retained in the output,
because the character filter `re.sub(r'[^a-z0-9\s-]', ' ', text)` replaces
it with a space before whitespace collapsing. -/
theorem c3_counter :
    normalize_text "José" true = "jos" ∧ ¬ ('é' ∈ (normalize_text "José" true).data) :=
  ⟨by decide, by decide⟩

/-- C3 amended: with `preserve_accents=true` the normalizer applies canonical
composition and case folding without transliterating accented letters to
ASCII, but the subsequent filter replaces every character outside lowercase
ASCII letters, digits, whitespace and hyphen — accented letters included —
with a space, so accented letters are not retained: every output character
lies in the ASCII class `[a-z0-9 -]` (which 'é' is not in), and on "José"
the two modes give "jos" (preserving) and "jose" (stripping). -/
theorem c3_preserve_accents_filter :
    normalize_text "José" true = "jos" ∧ normalize_text "José" false = "jose" ∧
    (∀ (s : String) (p : Bool), ∀ c ∈ (normalize_text s p).data, allowedChar c = true) ∧
    allowedChar 'é' = false :=
  ⟨by decide, by decide, fun s p => norm_data_allowed s p, by decide⟩

/-- C4: normalization is idempotent for both accent modes: normalizing
already-normalized text is a no-op. -/
theorem c4_normalize_idempotent (s : String) (p : Bool) :
    normalize_text (normalize_text s p) p = normalize_text s p :=
  norm_of_norm s p p

/-- C5: an extraction error short-circuits the engine to an error result
(no match evaluation is attempted, the returned record is the fixed error
record) and is classified Error regardless of score; otherwise the
orchestrator classifies a best score s as NoMatch when s < 30, PartialMatch
when 30 ≤ s < 100, and PerfectMatch exactly when s = 100 (the engine's
score never exceeds 100). -/
theorem c5_classification (fz : Fuzz) (fn t e : String) (s : Nat) :
    check_name_in_pdf fz fn t (some e) =
      { best_pair := none, best_score := 0, matched_text := "", error := some e } ∧
    classify (some e) s = Verdict.error ∧
    (s < NO_MATCH_THRESHOLD → classify none s = Verdict.noMatch) ∧
    (NO_MATCH_THRESHOLD ≤ s → s < PERFECT_MATCH_THRESHOLD →
      classify none s = Verdict.partialMatch) ∧
    (s = PERFECT_MATCH_THRESHOLD → classify none s = Verdict.perfectMatch) ∧
    (classifyResult (check_name_in_pdf fz fn t none) = Verdict.perfectMatch →
      (check_name_in_pdf fz fn t none).best_score = PERFECT_MATCH_THRESHOLD) := by
  refine ⟨rfl, rfl, ?_, ?_, ?_, ?_⟩
  · intro h
    unfold classify
    rw [if_pos h]
  · intro h1 h2
    unfold classify
    rw [if_neg (by omega), if_pos h2]
  · intro h
    subst h
    decide
  · intro hcl
    have hb : (check_name_in_pdf fz fn t none).best_score ≤ 100 :=
      check_core_le100 fz (extract_name_tokens fn) t
    match herr : (check_name_in_pdf fz fn t none).error with
    | some msg =>
      have hred : classifyResult (check_name_in_pdf fz fn t none) = Verdict.error := by
        unfold classifyResult
        rw [herr]
        rfl
      rw [hred] at hcl
      exact Verdict.noConfusion hcl
    | none =>
      have hred : classifyResult (check_name_in_pdf fz fn t none) =
          classify none (check_name_in_pdf fz fn t none).best_score := by
        unfold classifyResult
        rw [herr]
      rw [hred] at hcl
      have h100 := (classify_none_perfect_iff _).mp hcl
      simp only [PERFECT_MATCH_THRESHOLD] at h100 ⊢
      omega

/-- C5 witness: the three score bands at 10, 50 and 100, and the error
short-circuit on a concrete extraction failure. -/
theorem c5_classification_witness :
    classify none 10 = Verdict.noMatch ∧ classify none 50 = Verdict.partialMatch ∧
    classify none 100 = Verdict.perfectMatch ∧
    check_name_in_pdf zeroFuzz "a.pdf" "zz" (some "boom") =
      { best_pair := none, best_score := 0, matched_text := "", error := some "boom" } :=
  ⟨(c5_classification zeroFuzz "a.pdf" "zz" "boom" 10).2.2.1 (by decide),
   (c5_classification zeroFuzz "a.pdf" "zz" "boom" 50).2.2.2.1 (by decide) (by decide),
   (c5_classification zeroFuzz "a.pdf" "zz" "boom" 100).2.2.2.2.1 rfl,
   (c5_classification zeroFuzz "a.pdf" "zz" "boom" 0).1⟩

/-- C6 counterexample: the claim's example file name "x_y.pdf" does NOT
yield zero alphabetic tokens — "x" and "y" are alphabetic parts — so the
engine does not return the no-tokens error for it: on an empty document it
returns an ordinary zero-score result classified NoMatch, not Error. -/
theorem c6_counter :
    extract_name_tokens "x_y.pdf" = [("x", "x"), ("y", "y")] ∧
    alphaOf (extract_name_tokens "x_y.pdf") = [("x", "x"), ("y", "y")] ∧
    check_name_in_pdf zeroFuzz "x_y.pdf" "" none =
      { best_pair := none, best_score := 0, matched_text := "", error := none } ∧
    classifyResult (check_name_in_pdf zeroFuzz "x_y.pdf" "" none) = Verdict.noMatch :=
  ⟨by decide, by decide, by decide, by decide⟩

/-- C6 amended: for every file name that yields zero alphabetic tokens (for
example "12_34.pdf", whose parts are all numeric — unlike the claim's
"x_y.pdf", whose parts x and y are alphabetic), the engine returns the
error result "No valid alphabetic name tokens found" with score 0,
classified Error — a verdict distinct from the NoMatch verdict of a
zero-score match. -/
theorem c6_no_alpha_tokens (fz : Fuzz) (fn t : String)
    (h : alphaOf (extract_name_tokens fn) = []) :
    check_name_in_pdf fz fn t none =
      { best_pair := none, best_score := 0, matched_text := "",
        error := some "No valid alphabetic name tokens found" } ∧
    classifyResult (check_name_in_pdf fz fn t none) = Verdict.error ∧
    Verdict.error ≠ Verdict.noMatch ∧ classify none 0 = Verdict.noMatch := by
  have h1 : check_name_in_pdf fz fn t none =
      { best_pair := none, best_score := 0, matched_text := "",
        error := some "No valid alphabetic name tokens found" } := by
    show check_name_core fz (extract_name_tokens fn) t = _
    simp only [check_name_core]
    rw [if_pos (by rw [h]; rfl)]
  refine ⟨h1, ?_, by decide, by decide⟩
  rw [show classifyResult (check_name_in_pdf fz fn t none) =
    classify (check_name_in_pdf fz fn t none).error
      (check_name_in_pdf fz fn t none).best_score from rfl, h1]
  rfl

/-- C6 witness: "12_34.pdf" yields two numeric parts and no alphabetic
token, and is classified Error. -/
theorem c6_no_alpha_tokens_witness :
    alphaOf (extract_name_tokens "12_34.pdf") = [] ∧
    check_name_in_pdf zeroFuzz "12_34.pdf" "hello" none =
      { best_pair := none, best_score := 0, matched_text := "",
        error := some "No valid alphabetic name tokens found" } ∧
    classifyResult (check_name_in_pdf zeroFuzz "12_34.pdf" "hello" none) = Verdict.error :=
  ⟨by decide, (c6_no_alpha_tokens zeroFuzz "12_34.pdf" "hello" (by decide)).1,
   (c6_no_alpha_tokens zeroFuzz "12_34.pdf" "hello" (by decide)).2.1⟩

/-- C7 counterexample: ties in the final (clamped) score are not always won
by the earliest pair.  With three alphabetic tokens and a similarity
oracle that scores the candidates "ba xa" (from pair (0,1)) and "ba ya"
(from pair (0,2)) at raw 100 — rapidfuzz's `partial_ratio` does return 100
whenever the candidate occurs as a plain substring of the window, with no
word-boundary requirement — both pairs reach the stored best 99, and the
engine reports the LATER pair (0,2): the later raw 100 strictly exceeds
the stored, clamped 99 (`score > best_score` compares the raw value), so
the later pair overwrites the earlier one.  Dropping the third token shows
pair (0,1) alone reaches the same best score 99. -/
theorem c7_counter :
    check_name_core tieFuzz [("ba", "ba"), ("xa", "xa"), ("ya", "ya")] "q" =
      { best_pair := some ("ba", "ya"), best_score := 99, matched_text := "q",
        error := none } ∧
    check_name_core tieFuzz [("ba", "ba"), ("xa", "xa")] "q" =
      { best_pair := some ("ba", "xa"), best_score := 99, matched_text := "q",
        error := none } :=
  ⟨by decide, by decide⟩

/-- C7 amended: for n ≥ 2 alphabetic tokens, absent an early perfect-match
exit, the engine evaluates exactly the n*(n-1)/2 unordered position pairs
(i, j) with i < j, enumerated i ascending then j ascending; each pair
produces three phrase orderings ("first last", "last first", "first, last")
in two accent variants, i.e. 6 candidate strings; and — provided every raw
fuzzy window score is at most 99, so that the clamp
`min(score, PERFECT_MATCH_THRESHOLD - 1)` never truncates — ties in score
are won by the earliest scoring event in this enumeration order (the
reported pair is that of the first event attaining the final best score,
every earlier event scoring strictly less).  When raw scores reach 100 the
clamp truncates and a later pair can overwrite an equal stored score (see
the counterexample). -/
theorem c7_pair_enumeration (fz : Fuzz) (tokens : List (String × String)) (pdfText : String)
    (hn : 2 ≤ (alphaOf tokens).length)
    (H : ∀ nm ∈ scanNames (alphaOf tokens), ∀ t ∈ textsOf pdfText,
      exactPerfect nm t = false)
    (Hfz : ∀ nm ch : String, fz.fullSim nm ch ≤ 99 ∧ fz.subSim nm ch ≤ 99) :
    ((pairIdx (alphaOf tokens).length).length =
      (alphaOf tokens).length * ((alphaOf tokens).length - 1) / 2) ∧
    (∀ i j : Nat, (i, j) ∈ pairIdx (alphaOf tokens).length ↔
      i < j ∧ j < (alphaOf tokens).length) ∧
    List.Pairwise pairLt (pairIdx (alphaOf tokens).length) ∧
    (∀ fi la : String × String, (combosOf fi la).length = 3 ∧
      candNamesOfPair fi la =
        [fi.1 ++ " " ++ la.1, fi.2 ++ " " ++ la.2, la.1 ++ " " ++ fi.1,
         la.2 ++ " " ++ fi.2, fi.1 ++ ", " ++ la.1, fi.2 ++ ", " ++ la.2]) ∧
    ((check_name_core fz tokens pdfText).best_score =
      listMax 0 ((pairEntries fz (alphaOf tokens) (textsOf pdfText)).map FEntry.raw)) ∧
    (0 < (check_name_core fz tokens pdfText).best_score →
      ∃ k, k < (pairEntries fz (alphaOf tokens) (textsOf pdfText)).length ∧
        ((pairEntries fz (alphaOf tokens) (textsOf pdfText)).getD k
          ⟨("", ""), 0, "", ""⟩).raw = (check_name_core fz tokens pdfText).best_score ∧
        (∀ m, m < k → ((pairEntries fz (alphaOf tokens) (textsOf pdfText)).getD m
          ⟨("", ""), 0, "", ""⟩).raw < (check_name_core fz tokens pdfText).best_score) ∧
        (check_name_core fz tokens pdfText).best_pair =
          some ((pairEntries fz (alphaOf tokens) (textsOf pdfText)).getD k
            ⟨("", ""), 0, "", ""⟩).lab) := by
  have hcore := check_core_noHit fz tokens pdfText hn H
  have hraw := @pairEntries_raw_le fz (alphaOf tokens) (textsOf pdfText) Hfz
  obtain ⟨hs, _, hex⟩ := foldl_fUpd_spec fz
    (pairEntries fz (alphaOf tokens) (textsOf pdfText)) ⟨0, none, ""⟩ (by simp) hraw
  refine ⟨pairIdx_length _, fun i j => mem_pairIdx, pairIdx_sorted _,
    fun fi la => ⟨rfl, rfl⟩, ?_, ?_⟩
  · rw [hcore]
    exact hs
  · intro h0
    rw [hcore] at h0 ⊢
    obtain ⟨k, hk, hraw2, hbefore, hpair⟩ := hex h0
    exact ⟨k, hk, hraw2, hbefore, hpair⟩

/-- C7 witness: two alphabetic tokens, a text with no exact hit, and the
zero oracle: one pair, 2*(2-1)/2 = 1, and the engine's score is the
maximum over the flattened fuzzy events. -/
theorem c7_pair_enumeration_witness :
    ((pairIdx (alphaOf [("al", "al"), ("bo", "bo")]).length).length =
      (alphaOf [("al", "al"), ("bo", "bo")]).length *
        ((alphaOf [("al", "al"), ("bo", "bo")]).length - 1) / 2) ∧
    ((check_name_core zeroFuzz [("al", "al"), ("bo", "bo")] "zz").best_score =
      listMax 0 ((pairEntries zeroFuzz (alphaOf [("al", "al"), ("bo", "bo")])
        (textsOf "zz")).map FEntry.raw)) :=
  ⟨(c7_pair_enumeration zeroFuzz [("al", "al"), ("bo", "bo")] "zz" (by decide) (by decide)
      (fun nm ch => ⟨by simp [zeroFuzz], by simp [zeroFuzz]⟩)).1,
   (c7_pair_enumeration zeroFuzz [("al", "al"), ("bo", "bo")] "zz" (by decide) (by decide)
      (fun nm ch => ⟨by simp [zeroFuzz], by simp [zeroFuzz]⟩)).2.2.2.2.1⟩

/-- C8: the engine is total on well-typed input: for every file name,
document text and extraction-error option it returns a result record whose
best score never exceeds PERFECT_MATCH_THRESHOLD, and the normalizer
treats null/absent input as the empty string. -/
theorem c8_total (fz : Fuzz) (fn t : String) (e : Option String) (p : Bool) :
    (check_name_in_pdf fz fn t e).best_score ≤ PERFECT_MATCH_THRESHOLD ∧
    normTextOpt none p = normTextOpt (some "") p ∧
    normTextOpt none p = "" := by
  refine ⟨?_, rfl, by cases p <;> rfl⟩
  match e with
  | some msg => simp [check_name_in_pdf]
  | none =>
    show (check_name_core fz (extract_name_tokens fn) t).best_score ≤ _
    simpa [PERFECT_MATCH_THRESHOLD] using check_core_le100 fz (extract_name_tokens fn) t

/-- C9: per-document evaluation is deterministic: two evaluations of the
engine on equal (file name, document text, extraction error) inputs return
equal MatchResults (same best pair, best score, matched snippet, and error
field).  The Python set used to collect snippet candidates is modelled as
insertion-ordered, matching CPython's behavior within one process. -/
theorem c9_deterministic (fz : Fuzz) (fn1 fn2 t1 t2 : String) (e1 e2 : Option String)
    (hf : fn1 = fn2) (ht : t1 = t2) (he : e1 = e2) :
    check_name_in_pdf fz fn1 t1 e1 = check_name_in_pdf fz fn2 t2 e2 := by
  rw [hf, ht, he]

/-- C9 witness: a concrete double evaluation. -/
theorem c9_deterministic_witness :
    check_name_in_pdf zeroFuzz "a.pdf" "zz" none = check_name_in_pdf zeroFuzz "a.pdf" "zz" none :=
  c9_deterministic zeroFuzz "a.pdf" "a.pdf" "zz" "zz" none none rfl rfl rfl

/-- C10 counterexample: the claim fails as stated.  The file name
"ana_ñ_ç.pdf" yields the alphabetic token ("ana", "ana") with both
normalized variants nonempty — the claim's hypothesis — but it also yields
the tokens ("n", "") and ("c", "") whose accent-preserving variants
normalize to the empty string; the pair of those two produces the
candidate " ", whose normalization is empty and which the padded
containment test finds in the empty document, so the engine returns a
perfect match with score 100 on an EMPTY document instead of the claimed
zero-score NoMatch result. -/
theorem c10_counter :
    (∃ tk ∈ alphaOf (extract_name_tokens "ana_ñ_ç.pdf"), tk.1 ≠ "" ∧ tk.2 ≠ "") ∧
    check_name_in_pdf zeroFuzz "ana_ñ_ç.pdf" "" none =
      { best_pair := some ("", ""), best_score := 100, matched_text := " ",
        error := none } ∧
    classifyResult (check_name_in_pdf zeroFuzz "ana_ñ_ç.pdf" "" none) =
      Verdict.perfectMatch :=
  ⟨⟨("ana", "ana"), by decide, by decide, by decide⟩, by decide, by decide⟩

/-- C10 amended: for every file name with at least one alphabetic token,
provided EVERY alphabetic token's accent-preserving variant is nonempty
(the counterexample shows tokens with an empty accent-preserving variant
break the claim), an empty document text yields the ordinary result with
best score 0, no pair, empty matched snippet and no error, classified
NoMatch — an empty document is neither an error nor an exception. -/
theorem c10_empty_doc (fz : Fuzz) (fn : String)
    (h1 : alphaOf (extract_name_tokens fn) ≠ [])
    (h2 : ∀ tk ∈ alphaOf (extract_name_tokens fn), tk.2 ≠ "") :
    check_name_in_pdf fz fn "" none =
      { best_pair := none, best_score := 0, matched_text := "", error := none } ∧
    classifyResult (check_name_in_pdf fz fn "" none) = Verdict.noMatch := by
  have hshape : ∀ tk ∈ alphaOf (extract_name_tokens fn),
      ∃ part, tk = (normalize_text part false, normalize_text part true) :=
    fun tk htk => extract_shape (mem_alphaOf.mp htk).1
  have hcore := check_core_empty_doc fz (extract_name_tokens fn) hshape h1 h2
  have hh : check_name_in_pdf fz fn "" none =
      { best_pair := none, best_score := 0, matched_text := "", error := none } := hcore
  refine ⟨hh, ?_⟩
  rw [show classifyResult (check_name_in_pdf fz fn "" none) =
    classify (check_name_in_pdf fz fn "" none).error
      (check_name_in_pdf fz fn "" none).best_score from rfl, hh]
  rfl

/-- C10 witness: "ana.pdf" has one alphabetic token with both variants
nonempty; on the empty document the engine returns the zero-score
no-error result, classified NoMatch. -/
theorem c10_empty_doc_witness :
    alphaOf (extract_name_tokens "ana.pdf") ≠ [] ∧
    check_name_in_pdf zeroFuzz "ana.pdf" "" none =
      { best_pair := none, best_score := 0, matched_text := "", error := none } ∧
    classifyResult (check_name_in_pdf zeroFuzz "ana.pdf" "" none) = Verdict.noMatch :=
  ⟨by decide, (c10_empty_doc zeroFuzz "ana.pdf" (by decide) (by decide)).1,
   (c10_empty_doc zeroFuzz "ana.pdf" (by decide) (by decide)).2⟩
